import Mathlib

/-!
Verification of the aipair code-review engine against its specification.

The definitions below are shallow embeddings of the Rust sources:
  * `src/line_mapper.rs` — hunks, `map_line`, `find_nearest_surviving`;
  * `src/review.rs`      — the review store data model and mutations,
                           `get_by_prefix`, `extract_nearby_hunks`;
  * `src/api.rs`         — `add_pending_revision_if_needed`, `merge_change`;
  * `src/session.rs`     — `session_merge`.
Machine-integer casts (`as usize` on an `isize`) are modelled with an
explicit reduction modulo 2^64; effects (clock reads, fresh UUIDs, the
jj process, the filesystem) are passed in as explicit parameters or
modelled as association lists.
-/

namespace Aipair

/-! ## Line mapper: data model (src/line_mapper.rs) -/

inductive HunkLine where
  | Context : HunkLine
  | Add : HunkLine
  | Delete : HunkLine
  deriving DecidableEq, Repr

structure Hunk where
  old_start : Nat
  old_count : Nat
  new_start : Nat
  new_count : Nat
  lines : List HunkLine
  deriving DecidableEq, Repr

structure LineMapping where
  new_line : Nat
  was_deleted : Bool
  deriving DecidableEq, Repr

/-- 2^64, the modulus of Rust `usize`/`isize` on the target platform. -/
def USIZE : Int := 18446744073709551616

/-- Models the Rust cast chain `(n as isize + offset) as usize`: a wrapping
two's-complement addition followed by a bit-reinterpreting cast, which as a
whole is reduction of the exact integer sum modulo 2^64. -/
def castUsize (x : Int) : Nat := (x % USIZE).toNat

/-! ## find_nearest_surviving (src/line_mapper.rs lines 191-227) -/

/-- Loop body of `find_nearest_surviving`: walks the hunk lines with the
old-file cursor `o`, new-file cursor `n`, the last Context new-position seen
before the target (`lb`), and the `reached_target` flag `r`. -/
def fnsGo (target fallback : Nat) : List HunkLine → Nat → Nat → Option Nat → Bool → Nat
  | [], _, _, lb, _ => lb.getD fallback
  | .Context :: rest, o, n, _lb, r =>
      if r then n else fnsGo target fallback rest (o + 1) (n + 1) (some n) r
  | .Delete :: rest, o, n, lb, r =>
      fnsGo target fallback rest (o + 1) n lb (r || decide (o = target))
  | .Add :: rest, _o, n, lb, r =>
      if r then n else fnsGo target fallback rest _o (n + 1) lb r

/-- `find_nearest_surviving(hunk, deleted_old_line)`. -/
def find_nearest_surviving (h : Hunk) (deleted_old_line : Nat) : Nat :=
  fnsGo deleted_old_line (max h.new_start 1) h.lines h.old_start h.new_start none false

/-! ## map_line (src/line_mapper.rs lines 124-187) -/

/-- Inner walk of `map_line` over the lines of the hunk that contains
`old_line`; `ls` is `last_surviving`. -/
def walkGo (h : Hunk) (old_line : Nat) : List HunkLine → Nat → Nat → Option Nat → LineMapping
  | [], _, _, ls => ⟨ls.getD h.new_start, true⟩
  | .Context :: rest, o, n, _ls =>
      if o = old_line then ⟨n, false⟩ else walkGo h old_line rest (o + 1) (n + 1) (some n)
  | .Delete :: rest, o, n, ls =>
      if o = old_line then ⟨find_nearest_surviving h old_line, true⟩
      else walkGo h old_line rest (o + 1) n ls
  | .Add :: rest, o, n, ls => walkGo h old_line rest o (n + 1) ls

/-- Hunk loop of `map_line`, carrying the accumulated signed offset. -/
def mapLineGo (old_line : Nat) : List Hunk → Int → LineMapping
  | [], offset => ⟨castUsize (old_line + offset), false⟩
  | h :: rest, offset =>
      if old_line < h.old_start then ⟨castUsize (old_line + offset), false⟩
      else if old_line < h.old_start + h.old_count then
        walkGo h old_line h.lines h.old_start h.new_start none
      else mapLineGo old_line rest (offset + ((h.new_count : Int) - (h.old_count : Int)))

/-- `map_line(old_line, hunks)`. -/
def map_line (old_line : Nat) (hunks : List Hunk) : LineMapping :=
  mapLineGo old_line hunks 0

/-! ## Well-formedness of hunks, as produced from well-formed unified diffs -/

/-- Number of Context and Delete lines: the old-file lines a hunk consumes. -/
def countCD : List HunkLine → Nat
  | [] => 0
  | .Context :: rest => countCD rest + 1
  | .Delete :: rest => countCD rest + 1
  | .Add :: rest => countCD rest

/-- Number of Context and Add lines: the new-file lines a hunk produces. -/
def countCA : List HunkLine → Nat
  | [] => 0
  | .Context :: rest => countCA rest + 1
  | .Delete :: rest => countCA rest
  | .Add :: rest => countCA rest + 1

/-- A hunk as found in a well-formed unified diff: 1-based old start, line
tags consistent with the header counts, and a 1-based new start unless the
hunk has no new-file lines at all (a whole-file deletion prints `+0,0`). -/
def wfHunk (h : Hunk) : Bool :=
  decide (1 ≤ h.old_start) && (countCD h.lines == h.old_count)
    && (countCA h.lines == h.new_count)
    && (decide (1 ≤ h.new_start) || (countCA h.lines == 0))

/-- Hunks are listed in old-file order and do not overlap, each starting at
or after `lo`. -/
def orderedFrom (lo : Nat) : List Hunk → Bool
  | [] => true
  | h :: rest => decide (lo ≤ h.old_start) && orderedFrom (h.old_start + h.old_count) rest

/-- A hunk sequence as produced by diffing: ordered, with well-formed hunks. -/
def wfHunks (hs : List Hunk) : Bool :=
  hs.all wfHunk && orderedFrom 0 hs

/-- Sum of the per-hunk signed length differences `new_count - old_count`. -/
def offsetSum : List Hunk → Int
  | [] => 0
  | h :: rest => ((h.new_count : Int) - (h.old_count : Int)) + offsetSum rest

/-- Sum of the hunks' new-side line counts. -/
def sumNew : List Hunk → Nat
  | [] => 0
  | h :: rest => h.new_count + sumNew rest

/-- Sum of the hunks' old-side line counts. -/
def sumOld : List Hunk → Nat
  | [] => 0
  | h :: rest => h.old_count + sumOld rest

/-! ## Spec-side description of the deleted-line anchor (spec section 4.3)

The spec describes the anchor for a deleted old line `L` in terms of the
hunk's entries, each entry carrying the old-file and new-file position at
which it sits.  The following definitions transcribe that description; the
claim C1 compares them with the code's `find_nearest_surviving`. -/

/-- Annotate each hunk line with the old-file and new-file position at which
the walk of section 4.3 encounters it. -/
def annotate : List HunkLine → Nat → Nat → List (HunkLine × Nat × Nat)
  | [], _, _ => []
  | .Context :: rest, o, n => (.Context, o, n) :: annotate rest (o + 1) (n + 1)
  | .Delete :: rest, o, n => (.Delete, o, n) :: annotate rest (o + 1) n
  | .Add :: rest, o, n => (.Add, o, n) :: annotate rest o (n + 1)

/-- An entry that survives into the new file: a Context or Add line. -/
def surviving : HunkLine × Nat × Nat → Bool
  | (.Context, _, _) => true
  | (.Add, _, _) => true
  | (.Delete, _, _) => false

/-- Split an annotated hunk at the Delete entry whose old position is `L`,
returning the entries before and after it. -/
def splitAtDelete : List (HunkLine × Nat × Nat) → Nat → Option (List (HunkLine × Nat × Nat) × List (HunkLine × Nat × Nat))
  | [], _ => none
  | (.Delete, op, np) :: rest, L =>
      if op = L then some ([], rest)
      else (splitAtDelete rest L).map (fun p => ((.Delete, op, np) :: p.1, p.2))
  | (.Context, op, np) :: rest, L =>
      (splitAtDelete rest L).map (fun p => ((.Context, op, np) :: p.1, p.2))
  | (.Add, op, np) :: rest, L =>
      (splitAtDelete rest L).map (fun p => ((.Add, op, np) :: p.1, p.2))

/-- The anchor the spec prescribes for a deleted old line `L`: the first
surviving Context or Add line after the deletion; failing that, the last
surviving Context or Add line before it; failing both, `max(new_start, 1)`.
Returns `none` when `L` does not coincide with a Delete entry of the hunk. -/
def specAnchor (h : Hunk) (L : Nat) : Option Nat :=
  match splitAtDelete (annotate h.lines h.old_start h.new_start) L with
  | none => none
  | some (before, after) =>
      match after.find? surviving with
      | some e => some e.2.2
      | none =>
          match before.reverse.find? surviving with
          | some e => some e.2.2
          | none => some (max h.new_start 1)

/-- Scanning forward while skipping Add lines, a Delete line appears before
any Context line. -/
def deleteBeforeContext : List HunkLine → Bool
  | [] => false
  | .Delete :: _ => true
  | .Context :: _ => false
  | .Add :: rest => deleteBeforeContext rest

/-- Canonical hunk bodies, as emitted by git-style diffs: within a hunk, a
run of changed lines lists its Delete lines before its Add lines, so no Add
line is followed by a Delete line without a Context line in between. -/
def noStrandedAdd : List HunkLine → Bool
  | [] => true
  | .Add :: rest => !deleteBeforeContext rest && noStrandedAdd rest
  | _ :: rest => noStrandedAdd rest

/-! ## Arithmetic facts about the usize cast -/

theorem castUsize_eq_toNat {x : Int} (h0 : 0 ≤ x) (h1 : x < USIZE) :
    castUsize x = x.toNat := by
  unfold castUsize
  rw [Int.emod_eq_of_lt h0 h1]

theorem one_le_castUsize {x : Int} (h0 : 1 ≤ x) (h1 : x < USIZE) :
    1 ≤ castUsize x := by
  have h0' : (0 : Int) ≤ x := by omega
  rw [castUsize_eq_toNat h0' h1]
  omega

/-! ## Facts about hunk sums and ordering -/

theorem offsetSum_eq (hs : List Hunk) :
    offsetSum hs = (sumNew hs : Int) - (sumOld hs : Int) := by
  induction hs with
  | nil => simp [offsetSum, sumNew, sumOld]
  | cons h rest ih => simp [offsetSum, sumNew, sumOld, ih]; ring_nf

theorem orderedFrom_cons {lo : Nat} {h : Hunk} {rest : List Hunk}
    (hord : orderedFrom lo (h :: rest) = true) :
    lo ≤ h.old_start ∧ orderedFrom (h.old_start + h.old_count) rest = true := by
  simp [orderedFrom] at hord
  exact hord

theorem sumOld_le_of_ordered {L : Nat} :
    ∀ (hs : List Hunk) (lo : Nat), orderedFrom lo hs = true →
      (∀ h ∈ hs, h.old_start + h.old_count ≤ L) → lo ≤ L →
      lo + sumOld hs ≤ L := by
  intro hs
  induction hs with
  | nil => intro lo _ _ hlo; simpa [sumOld] using hlo
  | cons h rest ih =>
      intro lo hord hend hlo
      obtain ⟨h1, h2⟩ := orderedFrom_cons hord
      have hhl : h.old_start + h.old_count ≤ L := hend h (by simp)
      have := ih (h.old_start + h.old_count) h2
        (fun x hx => hend x (by simp [hx])) hhl
      simp only [sumOld]
      omega

/-! ## C2: mapping lines outside all hunks -/

theorem mapLineGo_after {L : Nat} :
    ∀ (hs : List Hunk) (offset : Int),
      (∀ h ∈ hs, h.old_start + h.old_count < L) →
      mapLineGo L hs offset = ⟨castUsize ((L : Int) + offset + offsetSum hs), false⟩ := by
  intro hs
  induction hs with
  | nil => intro offset _; simp [mapLineGo, offsetSum]
  | cons h rest ih =>
      intro offset hend
      have h1 : h.old_start + h.old_count < L := hend h (by simp)
      have hns : ¬ L < h.old_start := by omega
      have hne : ¬ L < h.old_start + h.old_count := by omega
      simp only [mapLineGo, if_neg hns, if_neg hne]
      rw [ih (offset + ((h.new_count : Int) - (h.old_count : Int)))
        (fun x hx => hend x (by simp [hx]))]
      simp only [offsetSum]
      congr 1
      ring_nf

/-! ## C3: lower bound on the mapped line for well-formed hunks -/

theorem countCA_eq_zero_all_delete :
    ∀ {lines : List HunkLine}, countCA lines = 0 → ∀ x ∈ lines, x = .Delete := by
  intro lines
  induction lines with
  | nil => intro _ x hx; cases hx
  | cons a rest ih =>
      intro hz x hx
      cases a with
      | Context => simp [countCA] at hz
      | Add => simp [countCA] at hz
      | Delete =>
          rcases List.mem_cons.mp hx with hx | hx
          · exact hx
          · exact ih (by simpa [countCA] using hz) x hx

theorem fnsGo_all_delete {t fb : Nat} :
    ∀ (lines : List HunkLine) (o n : Nat) (lb : Option Nat) (r : Bool),
      (∀ x ∈ lines, x = .Delete) →
      fnsGo t fb lines o n lb r = lb.getD fb := by
  intro lines
  induction lines with
  | nil => intro o n lb r _; rfl
  | cons a rest ih =>
      intro o n lb r hall
      have ha : a = .Delete := hall a (by simp)
      subst ha
      simpa [fnsGo] using ih (o + 1) n lb _ (fun x hx => hall x (by simp [hx]))

theorem fnsGo_ge_one {t fb : Nat} (hfb : 1 ≤ fb) :
    ∀ (lines : List HunkLine) (o n : Nat) (lb : Option Nat) (r : Bool),
      1 ≤ n → (∀ m, lb = some m → 1 ≤ m) →
      1 ≤ fnsGo t fb lines o n lb r := by
  intro lines
  induction lines with
  | nil =>
      intro o n lb r _ hlb
      cases lb with
      | none => simpa [fnsGo] using hfb
      | some m => simpa [fnsGo] using hlb m rfl
  | cons a rest ih =>
      intro o n lb r hn hlb
      cases a with
      | Context =>
          cases r with
          | true => simpa [fnsGo] using hn
          | false =>
              simp only [fnsGo, if_false, Bool.false_eq_true]
              exact ih (o + 1) (n + 1) (some n) false (by omega)
                (fun m hm => by cases hm; omega)
      | Add =>
          cases r with
          | true => simpa [fnsGo] using hn
          | false =>
              simp only [fnsGo, if_false, Bool.false_eq_true]
              exact ih o (n + 1) lb false (by omega) hlb
      | Delete =>
          simp only [fnsGo]
          exact ih (o + 1) n lb _ hn hlb

theorem find_nearest_surviving_ge_one (h : Hunk) (L : Nat) (hwf : wfHunk h = true) :
    1 ≤ find_nearest_surviving h L := by
  unfold wfHunk at hwf
  simp only [Bool.and_eq_true, Bool.or_eq_true, decide_eq_true_eq, beq_iff_eq] at hwf
  obtain ⟨⟨⟨_hos, _hcd⟩, _hca⟩, hns⟩ := hwf
  rcases hns with hns | hca0
  · exact fnsGo_ge_one (by omega) h.lines h.old_start h.new_start none false hns
      (fun m hm => by cases hm)
  · unfold find_nearest_surviving
    rw [fnsGo_all_delete h.lines h.old_start h.new_start none false
      (countCA_eq_zero_all_delete hca0)]
    show 1 ≤ max h.new_start 1
    omega

theorem walkGo_ge_one (h : Hunk) (L : Nat) (hwf : wfHunk h = true) :
    ∀ (lines : List HunkLine) (o n : Nat) (ls : Option Nat),
      o ≤ L → L < o + countCD lines →
      (1 ≤ n ∨ countCA lines = 0) →
      (∀ m, ls = some m → 1 ≤ m) →
      1 ≤ (walkGo h L lines o n ls).new_line := by
  intro lines
  induction lines with
  | nil => intro o n ls h1 h2 _ _; simp [countCD] at h2; omega
  | cons a rest ih =>
      intro o n ls h1 h2 hn hls
      cases a with
      | Context =>
          have hn1 : 1 ≤ n := by
            rcases hn with hn | hn
            · exact hn
            · simp [countCA] at hn
          simp only [walkGo]
          by_cases ho : o = L
          · simpa [ho] using hn1
          · simp only [ho, if_false]
            exact ih (o + 1) (n + 1) (some n) (by omega)
              (by simp [countCD] at h2; omega)
              (Or.inl (by omega)) (fun m hm => by cases hm; omega)
      | Delete =>
          simp only [walkGo]
          by_cases ho : o = L
          · simpa [ho] using find_nearest_surviving_ge_one h L hwf
          · simp only [ho, if_false]
            refine ih (o + 1) n ls (by omega) (by simp [countCD] at h2; omega) ?_ hls
            rcases hn with hn | hn
            · exact Or.inl hn
            · exact Or.inr (by simpa [countCA] using hn)
      | Add =>
          simp only [walkGo]
          exact ih o (n + 1) ls h1 (by simpa [countCD] using h2)
            (Or.inl (by omega)) hls

theorem mapLineGo_ge_one {L : Nat} :
    ∀ (hs : List Hunk) (offset : Int) (lo : Nat),
      (∀ h ∈ hs, wfHunk h = true) → orderedFrom lo hs = true →
      lo ≤ L → (1 ≤ (lo : Int) + offset ∨ (0 ≤ offset ∧ 1 ≤ L)) →
      (L : Int) + offset + (sumNew hs : Int) < USIZE →
      1 ≤ (mapLineGo L hs offset).new_line := by
  intro hs
  induction hs with
  | nil =>
      intro offset lo _ _ hloL hinv hbound
      simp only [mapLineGo]
      exact one_le_castUsize (by omega) (by simp [sumNew] at hbound; omega)
  | cons h rest ih =>
      intro offset lo hwf hord hloL hinv hbound
      obtain ⟨h1, h2⟩ := orderedFrom_cons hord
      have hwfh : wfHunk h = true := hwf h (by simp)
      have hwfh' := hwfh
      unfold wfHunk at hwfh'
      simp only [Bool.and_eq_true, Bool.or_eq_true, decide_eq_true_eq,
        beq_iff_eq] at hwfh'
      obtain ⟨⟨⟨hos, hcd⟩, _hca⟩, hns⟩ := hwfh'
      simp only [mapLineGo]
      by_cases hb : L < h.old_start
      · simp only [hb, if_true]
        exact one_le_castUsize (by omega) (by simp [sumNew] at hbound; omega)
      · simp only [hb, if_false]
        by_cases hi : L < h.old_start + h.old_count
        · simp only [hi, if_true]
          exact walkGo_ge_one h L hwfh h.lines h.old_start h.new_start none
            (by omega) (by omega) hns (fun m hm => by cases hm)
        · simp only [hi, if_false]
          refine ih (offset + ((h.new_count : Int) - (h.old_count : Int)))
            (h.old_start + h.old_count)
            (fun x hx => hwf x (by simp [hx])) h2 (by omega)
            (Or.inl (by omega)) ?_
          simp only [sumNew] at hbound
          push_cast at hbound ⊢
          omega

/-! ## C1: the anchor of a deleted line -/

theorem annotate_map_fst :
    ∀ (lines : List HunkLine) (o n : Nat),
      (annotate lines o n).map (fun e => e.1) = lines := by
  intro lines
  induction lines with
  | nil => intro o n; rfl
  | cons a rest ih =>
      intro o n
      cases a <;> simp [annotate, ih]

theorem mem_annotate_old_ge :
    ∀ (lines : List HunkLine) (o n : Nat) (e : HunkLine × Nat × Nat),
      e ∈ annotate lines o n → o ≤ e.2.1 := by
  intro lines
  induction lines with
  | nil => intro o n e he; cases he
  | cons a rest ih =>
      intro o n e he
      cases a with
      | Context =>
          rcases List.mem_cons.mp he with he | he
          · subst he; simp
          · have := ih (o + 1) (n + 1) e he; omega
      | Delete =>
          rcases List.mem_cons.mp he with he | he
          · subst he; simp
          · have := ih (o + 1) n e he; omega
      | Add =>
          rcases List.mem_cons.mp he with he | he
          · subst he; simp
          · exact ih o (n + 1) e he

theorem mem_annotate_old_lt :
    ∀ (lines : List HunkLine) (o n : Nat) (e : HunkLine × Nat × Nat),
      e ∈ annotate lines o n → e.1 ≠ .Add → e.2.1 < o + countCD lines := by
  intro lines
  induction lines with
  | nil => intro o n e he _; cases he
  | cons a rest ih =>
      intro o n e he hne
      cases a with
      | Context =>
          rcases List.mem_cons.mp he with he | he
          · subst he; simp only [countCD]; omega
          · have := ih (o + 1) (n + 1) e he hne
            simp only [countCD]; omega
      | Delete =>
          rcases List.mem_cons.mp he with he | he
          · subst he; simp only [countCD]; omega
          · have := ih (o + 1) n e he hne
            simp only [countCD]; omega
      | Add =>
          rcases List.mem_cons.mp he with he | he
          · subst he; exact absurd rfl hne
          · have := ih o (n + 1) e he hne
            simp only [countCD]; omega

theorem splitAtDelete_cons_of_map :
    ∀ {e : HunkLine × Nat × Nat} {rest : List (HunkLine × Nat × Nat)} {L : Nat}
      {b a : List (HunkLine × Nat × Nat)},
      (splitAtDelete rest L).map (fun p => (e :: p.1, p.2)) = some (b, a) →
      ∃ b', splitAtDelete rest L = some (b', a) ∧ b = e :: b' := by
  intro e rest L b a hsp
  cases hsp' : splitAtDelete rest L with
  | none => rw [hsp'] at hsp; cases hsp
  | some p =>
      rw [hsp'] at hsp
      obtain ⟨b', a'⟩ := p
      simp only [Option.map_some', Option.some.injEq, Prod.mk.injEq] at hsp
      obtain ⟨h1, rfl⟩ := hsp
      exact ⟨b', rfl, h1.symm⟩

theorem splitAtDelete_eq :
    ∀ (l : List (HunkLine × Nat × Nat)) (L : Nat)
      (b a : List (HunkLine × Nat × Nat)),
      splitAtDelete l L = some (b, a) →
      ∃ np, l = b ++ (.Delete, L, np) :: a := by
  intro l
  induction l with
  | nil => intro L b a hsp; cases hsp
  | cons e rest ih =>
      intro L b a hsp
      obtain ⟨t, op, np⟩ := e
      cases t with
      | Context =>
          obtain ⟨b', hsp', rfl⟩ := splitAtDelete_cons_of_map hsp
          obtain ⟨np', hnp⟩ := ih L b' a hsp'
          exact ⟨np', by simp [hnp]⟩
      | Add =>
          obtain ⟨b', hsp', rfl⟩ := splitAtDelete_cons_of_map hsp
          obtain ⟨np', hnp⟩ := ih L b' a hsp'
          exact ⟨np', by simp [hnp]⟩
      | Delete =>
          by_cases ho : op = L
          · subst ho
            rw [show splitAtDelete ((HunkLine.Delete, op, np) :: rest) op
                  = some ([], rest) from by simp [splitAtDelete]] at hsp
            simp only [Option.some.injEq, Prod.mk.injEq] at hsp
            obtain ⟨rfl, rfl⟩ := hsp
            exact ⟨np, by simp⟩
          · rw [show splitAtDelete ((HunkLine.Delete, op, np) :: rest) L
                  = (splitAtDelete rest L).map
                      (fun p => ((HunkLine.Delete, op, np) :: p.1, p.2)) from by
                simp [splitAtDelete, ho]] at hsp
            obtain ⟨b', hsp', rfl⟩ := splitAtDelete_cons_of_map hsp
            obtain ⟨np', hnp⟩ := ih L b' a hsp'
            exact ⟨np', by simp [hnp]⟩

theorem surviving_false_delete {e : HunkLine × Nat × Nat}
    (h : surviving e = false) : e.1 = .Delete := by
  obtain ⟨t, op, np⟩ := e
  cases t with
  | Context => simp [surviving] at h
  | Add => simp [surviving] at h
  | Delete => rfl

theorem deleteBeforeContext_all_delete :
    ∀ (l1 : List HunkLine), (∀ t ∈ l1, t = .Delete) →
      ∀ (l2 : List HunkLine), deleteBeforeContext (l1 ++ .Delete :: l2) = true := by
  intro l1
  induction l1 with
  | nil => intro _ l2; rfl
  | cons t l1' ih =>
      intro hall l2
      have := hall t (by simp)
      subst this
      rfl

theorem fnsGo_reached {L fb : Nat} :
    ∀ (lines : List HunkLine) (o n : Nat) (lb : Option Nat),
      fnsGo L fb lines o n lb true =
        (match (annotate lines o n).find? surviving with
         | some e => e.2.2
         | none => lb.getD fb) := by
  intro lines
  induction lines with
  | nil => intro o n lb; rfl
  | cons a rest ih =>
      intro o n lb
      cases a with
      | Context => simp [fnsGo, annotate, List.find?, surviving]
      | Add => simp [fnsGo, annotate, List.find?, surviving]
      | Delete =>
          simp only [fnsGo, annotate, List.find?, surviving, Bool.true_or]
          exact ih (o + 1) n lb

theorem fnsGo_split {L fb : Nat} :
    ∀ (lines : List HunkLine) (o n : Nat) (lb : Option Nat)
      (b a : List (HunkLine × Nat × Nat)),
      noStrandedAdd lines = true →
      splitAtDelete (annotate lines o n) L = some (b, a) →
      fnsGo L fb lines o n lb false =
        (match a.find? surviving with
         | some e => e.2.2
         | none =>
             match b.reverse.find? surviving with
             | some e => e.2.2
             | none => lb.getD fb) := by
  intro lines
  induction lines with
  | nil => intro o n lb b a _ hsp; cases hsp
  | cons x rest ih =>
      intro o n lb b a hnsa hsp
      cases x with
      | Context =>
          simp only [annotate, splitAtDelete] at hsp
          obtain ⟨b', hsp', rfl⟩ := splitAtDelete_cons_of_map hsp
          have hnsa' : noStrandedAdd rest = true := by
            simpa [noStrandedAdd] using hnsa
          simp only [fnsGo, Bool.false_eq_true, if_false]
          rw [ih (o + 1) (n + 1) (some n) b' a hnsa' hsp']
          cases hfa : a.find? surviving with
          | some e => rfl
          | none =>
              simp only [List.reverse_cons, List.find?_append]
              cases hfb : b'.reverse.find? surviving with
              | some e => rfl
              | none => simp [List.find?, surviving]
      | Delete =>
          by_cases ho : o = L
          · subst ho
            simp only [annotate, splitAtDelete, Option.some.injEq, Prod.mk.injEq] at hsp
            obtain ⟨rfl, rfl⟩ := hsp
            simp only [fnsGo]
            rw [show (false || decide True) = true from rfl]
            rw [fnsGo_reached rest (o + 1) n lb]
            cases hfa : (annotate rest (o + 1) n).find? surviving <;> simp [hfa]
          · simp only [annotate, splitAtDelete] at hsp
            rw [if_neg ho] at hsp
            obtain ⟨b', hsp', rfl⟩ := splitAtDelete_cons_of_map hsp
            have hnsa' : noStrandedAdd rest = true := by
              simpa [noStrandedAdd] using hnsa
            simp only [fnsGo]
            rw [show (false || decide (o = L)) = false by simp [ho]]
            rw [ih (o + 1) n lb b' a hnsa' hsp']
            cases hfa : a.find? surviving with
            | some e => rfl
            | none =>
                simp only [List.reverse_cons, List.find?_append]
                cases hfb : b'.reverse.find? surviving with
                | some e => rfl
                | none => simp [List.find?, surviving]
      | Add =>
          simp only [annotate, splitAtDelete] at hsp
          obtain ⟨b', hsp', rfl⟩ := splitAtDelete_cons_of_map hsp
          have hnsa2 : noStrandedAdd rest = true := by
            have := hnsa
            simp only [noStrandedAdd, Bool.and_eq_true] at this
            exact this.2
          have hdbc : deleteBeforeContext rest = false := by
            have := hnsa
            simp only [noStrandedAdd, Bool.and_eq_true, Bool.not_eq_true'] at this
            exact this.1
          simp only [fnsGo, Bool.false_eq_true, if_false]
          rw [ih o (n + 1) lb b' a hnsa2 hsp']
          cases hfa : a.find? surviving with
          | some e => rfl
          | none =>
              simp only [List.reverse_cons, List.find?_append]
              cases hfb : b'.reverse.find? surviving with
              | some e => rfl
              | none =>
                  exfalso
                  have hball : ∀ e ∈ b', surviving e = false := by
                    intro e he
                    have := List.find?_eq_none.mp hfb e (List.mem_reverse.mpr he)
                    simpa using this
                  obtain ⟨np, hnp⟩ := splitAtDelete_eq _ _ _ _ hsp'
                  have htags :
                      rest = b'.map (fun e => e.1) ++ .Delete :: a.map (fun e => e.1) := by
                    have := annotate_map_fst rest o (n + 1)
                    rw [hnp] at this
                    simpa using this.symm
                  have hdt : deleteBeforeContext rest = true := by
                    rw [htags]
                    exact deleteBeforeContext_all_delete _
                      (by
                        intro t ht
                        obtain ⟨e, he, rfl⟩ := List.mem_map.mp ht
                        exact surviving_false_delete (hball e he)) _
                  rw [hdt] at hdbc
                  cases hdbc

theorem walkGo_to_delete (h : Hunk) (L : Nat) :
    ∀ (lines : List HunkLine) (o n : Nat) (ls : Option Nat) (np : Nat),
      (.Delete, L, np) ∈ annotate lines o n →
      walkGo h L lines o n ls = ⟨find_nearest_surviving h L, true⟩ := by
  intro lines
  induction lines with
  | nil => intro o n ls np hmem; cases hmem
  | cons x rest ih =>
      intro o n ls np hmem
      cases x with
      | Context =>
          rcases List.mem_cons.mp hmem with he | he
          · cases he
          · have hge := mem_annotate_old_ge rest (o + 1) (n + 1) _ he
            simp only at hge
            have ho : o ≠ L := by omega
            simp only [walkGo, if_neg ho]
            exact ih (o + 1) (n + 1) (some n) np he
      | Delete =>
          rcases List.mem_cons.mp hmem with he | he
          · injection he with h1 h2
            injection h2 with h21 h22
            subst h21
            simp [walkGo]
          · have hge := mem_annotate_old_ge rest (o + 1) n _ he
            simp only at hge
            have ho : o ≠ L := by omega
            simp only [walkGo, if_neg ho]
            exact ih (o + 1) n ls np he
      | Add =>
          rcases List.mem_cons.mp hmem with he | he
          · cases he
          · simp only [walkGo]
            exact ih o (n + 1) ls np he

theorem orderedFrom_append_le :
    ∀ (pre : List Hunk) (h : Hunk) (post : List Hunk) (lo : Nat),
      orderedFrom lo (pre ++ h :: post) = true → lo ≤ h.old_start := by
  intro pre
  induction pre with
  | nil => intro h post lo hord; exact (orderedFrom_cons hord).1
  | cons p pre' ih =>
      intro h post lo hord
      rw [List.cons_append] at hord
      obtain ⟨h1, h2⟩ := orderedFrom_cons hord
      have := ih h post (p.old_start + p.old_count) h2
      omega

theorem mapLineGo_routes (L : Nat) :
    ∀ (pre : List Hunk) (h : Hunk) (post : List Hunk) (lo : Nat) (offset : Int),
      orderedFrom lo (pre ++ h :: post) = true →
      h.old_start ≤ L → L < h.old_start + h.old_count →
      mapLineGo L (pre ++ h :: post) offset =
        walkGo h L h.lines h.old_start h.new_start none := by
  intro pre
  induction pre with
  | nil =>
      intro h post lo offset _ hge hlt
      simp only [List.nil_append, mapLineGo, if_neg (by omega : ¬ L < h.old_start),
        if_pos hlt]
  | cons p pre' ih =>
      intro h post lo offset hord hge hlt
      rw [List.cons_append] at hord
      obtain ⟨h1, h2⟩ := orderedFrom_cons hord
      have hple := orderedFrom_append_le pre' h post _ h2
      simp only [List.cons_append, mapLineGo,
        if_neg (by omega : ¬ L < p.old_start),
        if_neg (by omega : ¬ L < p.old_start + p.old_count)]
      exact ih h post _ _ h2 hge hlt

/-- C1.  For every hunk sequence obtained by diffing (encoded by the
hypotheses: hunks in old-file order, the hunk's line tags consistent with
its header, and Delete lines preceding Add lines within each change run),
and every old-file line `L` that coincides with a Delete entry of a hunk,
`map_line` returns `was_deleted = true` and `new_line` equal to the anchor
the spec prescribes: the first surviving Context or Add line after the
deletion; failing that, the last surviving Context or Add line before it;
failing both, `max(new_start, 1)` — all as computed by `specAnchor`. -/
theorem c1_deleted_line_maps_to_nearest_surviving
    (hs pre post : List Hunk) (h : Hunk) (L a : Nat)
    (hshape : hs = pre ++ h :: post)
    (hord : orderedFrom 0 hs = true)
    (hcd : countCD h.lines = h.old_count)
    (hcanon : noStrandedAdd h.lines = true)
    (hanchor : specAnchor h L = some a) :
    map_line L hs = ⟨a, true⟩ := by
  subst hshape
  cases hsplit : splitAtDelete (annotate h.lines h.old_start h.new_start) L with
  | none =>
      have hnone : specAnchor h L = none := by unfold specAnchor; rw [hsplit]
      rw [hnone] at hanchor; cases hanchor
  | some p =>
      obtain ⟨b, t⟩ := p
      have hanchor2 :
          (match t.find? surviving with
           | some e => some e.2.2
           | none =>
               match b.reverse.find? surviving with
               | some e => some e.2.2
               | none => some (max h.new_start 1)) = some a := by
        rw [← hanchor]; unfold specAnchor; rw [hsplit]
      obtain ⟨np, hann⟩ := splitAtDelete_eq _ _ _ _ hsplit
      have hmem : (HunkLine.Delete, L, np) ∈ annotate h.lines h.old_start h.new_start := by
        rw [hann]; simp
      have hge : h.old_start ≤ L := mem_annotate_old_ge _ _ _ _ hmem
      have hlt : L < h.old_start + h.old_count := by
        have hx := mem_annotate_old_lt _ _ _ _ hmem (by simp)
        rw [hcd] at hx
        exact hx
      rw [map_line, mapLineGo_routes L pre h post 0 0 hord hge hlt]
      rw [walkGo_to_delete h L h.lines h.old_start h.new_start none np hmem]
      have hfns : find_nearest_surviving h L =
          (match t.find? surviving with
           | some e => e.2.2
           | none =>
               match b.reverse.find? surviving with
               | some e => e.2.2
               | none => max h.new_start 1) := by
        unfold find_nearest_surviving
        rw [fnsGo_split h.lines h.old_start h.new_start none b t hcanon hsplit]
        cases t.find? surviving with
        | some e => rfl
        | none => cases b.reverse.find? surviving with
          | some e => rfl
          | none => rfl
      rw [hfns]
      cases hfa : t.find? surviving with
      | some e =>
          rw [hfa] at hanchor2
          simp only [Option.some.injEq] at hanchor2
          simp [hanchor2]
      | none =>
          rw [hfa] at hanchor2
          cases hfb : b.reverse.find? surviving with
          | some e =>
              rw [hfb] at hanchor2
              simp only [Option.some.injEq] at hanchor2
              simp [hanchor2]
          | none =>
              rw [hfb] at hanchor2
              simp only [Option.some.injEq] at hanchor2
              simp [hanchor2]

/-- C1 witness: the hunk `@@ -10,3 +10,1 @@` with body Context, Delete,
Delete (the Rust unit test `test_map_line_deleted_anchors_backward`): the
deleted line 11 anchors to new-file line 10. -/
theorem c1_witness :
    map_line 11 [⟨10, 3, 10, 1, [.Context, .Delete, .Delete]⟩] =
      ⟨10, true⟩ :=
  c1_deleted_line_maps_to_nearest_surviving
    [⟨10, 3, 10, 1, [.Context, .Delete, .Delete]⟩] []
    [] ⟨10, 3, 10, 1, [.Context, .Delete, .Delete]⟩ 11 10
    rfl (by decide) (by decide) (by decide) (by decide)

/-- C2.  A line strictly before the first hunk's old range maps to itself;
a line strictly after every hunk's old range maps to `L` plus the sum of
the hunks' `new_count - old_count`, never marked deleted.  The bounds on
`USIZE` state that the usize arithmetic does not wrap. -/
theorem c2_lines_outside_hunks_shift_by_offset (L : Nat) (hs : List Hunk) :
    (∀ h rest, hs = h :: rest → L < h.old_start → (L : Int) < USIZE →
      map_line L hs = ⟨L, false⟩)
    ∧ (orderedFrom 0 hs = true →
       (∀ h ∈ hs, h.old_start + h.old_count < L) →
       (L : Int) + (sumNew hs : Int) < USIZE →
       0 ≤ (L : Int) + offsetSum hs ∧
       map_line L hs = ⟨((L : Int) + offsetSum hs).toNat, false⟩) := by
  constructor
  · rintro h rest rfl hlt hb
    unfold map_line mapLineGo
    rw [if_pos hlt]
    have : castUsize ((L : Int) + 0) = L := by
      rw [castUsize_eq_toNat (by omega) (by omega)]
      omega
    rw [this]
  · intro hord hend hb
    have hsumold : 0 + sumOld hs ≤ L :=
      sumOld_le_of_ordered hs 0 hord (fun h hh => le_of_lt (hend h hh)) (Nat.zero_le L)
    have hnn : 0 ≤ (L : Int) + offsetSum hs := by
      rw [offsetSum_eq]
      omega
    refine ⟨hnn, ?_⟩
    unfold map_line
    rw [mapLineGo_after hs 0 hend]
    have harr : (L : Int) + 0 + offsetSum hs = (L : Int) + offsetSum hs := by ring
    rw [harr, castUsize_eq_toNat hnn (by rw [offsetSum_eq]; omega)]

/-- C2 witness: for the hunk `@@ -10,3 +10,5 @@` (two lines inserted),
line 5 is untouched and line 20 shifts to 22, matching the Rust unit tests
`test_map_line_before_hunk` and `test_map_line_after_hunk`. -/
theorem c2_witness :
    map_line 5 [⟨10, 3, 10, 5, [.Context, .Add, .Add, .Context, .Context]⟩] = ⟨5, false⟩ ∧
    map_line 20 [⟨10, 3, 10, 5, [.Context, .Add, .Add, .Context, .Context]⟩] = ⟨22, false⟩ := by
  constructor
  · exact (c2_lines_outside_hunks_shift_by_offset 5
      [⟨10, 3, 10, 5, [.Context, .Add, .Add, .Context, .Context]⟩]).1
      _ _ rfl (by decide) (by decide)
  · have h := (c2_lines_outside_hunks_shift_by_offset 20
      [⟨10, 3, 10, 5, [.Context, .Add, .Add, .Context, .Context]⟩]).2
      (by decide) (by decide) (by decide)
    exact h.2.trans (by decide)

/-- C3, counterexample.  The claim asserts `new_line ≥ 1` for every
sequence of hunks, but on the hunk `⟨0, 1, 0, 0, []⟩` (as the tolerant
parser would produce from a malformed header `@@ -0,1 +0,0 @@`) the
accumulated offset is `-1` and `map_line 1` returns `new_line = 0`. -/
theorem c3_counterexample :
    map_line 1 [⟨0, 1, 0, 0, []⟩] = ⟨0, false⟩ ∧
    ¬ 1 ≤ (map_line 1 [⟨0, 1, 0, 0, []⟩]).new_line := by
  constructor
  · decide
  · decide

/-- C3, amended.  `map_line` is total by construction (it is a Lean
function into `LineMapping`, never an `Option`), and for every 1-based
line `L` and every hunk sequence arising from a well-formed diff
(`wfHunks`: ordered hunks, consistent header counts, 1-based starts), the
returned `new_line` is at least 1; the `USIZE` bound states that the
usize arithmetic does not wrap. -/
theorem c3_map_line_total_ge_one (L : Nat) (hs : List Hunk)
    (hL : 1 ≤ L) (hwf : wfHunks hs = true)
    (hbound : (L : Int) + (sumNew hs : Int) < USIZE) :
    1 ≤ (map_line L hs).new_line := by
  unfold wfHunks at hwf
  simp only [Bool.and_eq_true, List.all_eq_true] at hwf
  exact mapLineGo_ge_one hs 0 0 (fun h hh => hwf.1 h hh) hwf.2 (Nat.zero_le L)
    (Or.inr ⟨le_refl 0, hL⟩) (by omega)

/-- C3 witness: the anchored result for deleting every line of a three-line
file (`@@ -1,3 +0,0 @@`) is still a 1-based line. -/
theorem c3_witness :
    1 ≤ (map_line 2 [⟨1, 3, 0, 0, [.Delete, .Delete, .Delete]⟩]).new_line :=
  c3_map_line_total_ge_one 2 [⟨1, 3, 0, 0, [.Delete, .Delete, .Delete]⟩]
    (by decide) (by decide) (by decide)

/-! ## Review store: data model (src/review.rs)

Timestamps (`DateTime<Utc>` in the source) are modelled as `Nat` instants
passed in by the caller, since `Utc::now()` is an effect; the random
truncated UUID of a new thread is likewise a `fresh_id` parameter.  The
on-disk store (one JSON document per change under `.aipair/reviews/`) is
modelled as the list of stored `Review` documents. -/

inductive Author where
  | User : Author
  | Claude : Author
  deriving DecidableEq, Repr

inductive ThreadStatus where
  | Open : ThreadStatus
  | Resolved : ThreadStatus
  deriving DecidableEq, Repr

structure Comment where
  author : Author
  text : String
  timestamp : Nat
  deriving DecidableEq, Repr

structure Thread where
  id : String
  file : String
  line_start : Nat
  line_end : Nat
  status : ThreadStatus
  comments : List Comment
  created_at_commit : Option String
  created_at_revision : Option Nat
  display_line_start : Option Nat
  display_line_end : Option Nat
  is_displaced : Bool
  is_deleted : Bool
  deriving DecidableEq, Repr

structure Revision where
  number : Nat
  commit_id : String
  created_at : Nat
  description : Option String
  is_pending : Bool
  deriving DecidableEq, Repr

structure Review where
  change_id : String
  base : String
  created_at : Nat
  threads : List Thread
  revisions : List Revision
  working_commit_id : Option String
  deriving DecidableEq, Repr

/-! ## Review store operations (src/review.rs) -/

/-- `ReviewStore::get`: the document whose filename is `<change_id>.json`. -/
def getReview (store : List Review) (change_id : String) : Option Review :=
  store.find? (fun r => r.change_id == change_id)

/-- The filename under which a review document is stored. -/
def reviewFileName (r : Review) : String := r.change_id ++ ".json"

/-- `ReviewStore::get_by_prefix`: exact match first, then prefix search over
the stored filenames; zero matches is `None`, two or more an error. -/
def get_by_prefix (store : List Review) (pfx : String) :
    Except String (Option Review) :=
  match getReview store pfx with
  | some review => .ok (some review)
  | none =>
      match store.filter (fun r =>
          (reviewFileName r).startsWith pfx && (reviewFileName r).endsWith ".json") with
      | [] => .ok none
      | [r] => .ok (some r)
      | ms => .error ("Ambiguous change_id prefix " ++ pfx ++ ": matches "
          ++ toString ms.length ++ " reviews")

/-- `ReviewStore::save`: write the document at `<change_id>.json`, replacing
any existing document of that change. -/
def saveReview (store : List Review) (r : Review) : List Review :=
  if store.any (fun x => x.change_id == r.change_id) then
    store.map (fun x => if x.change_id == r.change_id then r else x)
  else store ++ [r]

/-- The fresh document `get_or_create` writes when none exists. -/
def mkReview (change_id base commit_id : String) (now : Nat) : Review :=
  { change_id := change_id, base := base, created_at := now,
    threads := [], revisions := [], working_commit_id := some commit_id }

/-- `ReviewStore::get_or_create`. -/
def get_or_create (store : List Review) (change_id base commit_id : String)
    (now : Nat) : List Review × Review :=
  match getReview store change_id with
  | some review =>
      if review.working_commit_id = none then
        let review := { review with working_commit_id := some commit_id }
        (saveReview store review, review)
      else (store, review)
  | none =>
      let review := mkReview change_id base commit_id now
      (saveReview store review, review)

/-- `ReviewStore::record_revision`, after the document has been loaded. -/
def record_revision (review : Review) (commit_id : String)
    (description : Option String) (now : Nat) : Review × Nat :=
  let number := review.revisions.length + 1
  ({ review with
      revisions := review.revisions ++
        [{ number := number, commit_id := commit_id, created_at := now,
           description := description, is_pending := false }],
      working_commit_id := some commit_id }, number)

/-- `ReviewStore::record_revision` at the store level: errors when no
review document exists for the change. -/
def store_record_revision (store : List Review) (change_id commit_id : String)
    (description : Option String) (now : Nat) :
    Except String (List Review × Review × Nat) :=
  match getReview store change_id with
  | none => .error ("Review not found for change: " ++ change_id)
  | some review =>
      let p := record_revision review commit_id description now
      .ok (saveReview store p.1, p.1, p.2)

/-- Append a comment to a thread. -/
def pushComment (c : Comment) (t : Thread) : Thread :=
  { t with comments := t.comments ++ [c] }

/-- Modify the first thread with the given id (`iter_mut().find(...)`). -/
def updateFirstThread (tid : String) (f : Thread → Thread) :
    List Thread → List Thread
  | [] => []
  | t :: rest =>
      if t.id = tid then f t :: rest else t :: updateFirstThread tid f rest

/-- `ReviewStore::add_comment`, after the document has been loaded: append
a revision when the commit moved, update the working commit, then append
the comment to the thread keyed by `(file, line_start, line_end)` or create
a new thread. -/
def add_comment (review : Review) (file : String) (line_start line_end : Nat)
    (author : Author) (text : String) (commit_id : String) (now : Nat)
    (fresh_id : String) : Review × String :=
  let review :=
    if review.revisions.getLast?.map (fun r => r.commit_id) ≠ some commit_id then
      { review with revisions := review.revisions ++
          [{ number := review.revisions.length + 1, commit_id := commit_id,
             created_at := now, description := none, is_pending := false }] }
    else review
  let review := { review with working_commit_id := some commit_id }
  let current_revision := review.revisions.getLast?.map (fun r => r.number)
  match (review.threads.find? (fun t =>
      t.file == file && t.line_start == line_start && t.line_end == line_end)).map
      (fun t => t.id) with
  | some id =>
      ({ review with threads :=
          updateFirstThread id (pushComment ⟨author, text, now⟩) review.threads }, id)
  | none =>
      ({ review with threads := review.threads ++
          [{ id := fresh_id, file := file, line_start := line_start,
             line_end := line_end, status := .Open,
             comments := [⟨author, text, now⟩],
             created_at_commit := some commit_id,
             created_at_revision := current_revision,
             display_line_start := none, display_line_end := none,
             is_displaced := false, is_deleted := false }] }, fresh_id)

/-- `ReviewStore::add_comment` at the store level: errors when no review
document exists for the change (no document is created). -/
def store_add_comment (store : List Review) (change_id file : String)
    (line_start line_end : Nat) (author : Author) (text commit_id : String)
    (now : Nat) (fresh_id : String) :
    Except String (List Review × Review × String) :=
  match getReview store change_id with
  | none => .error ("Review not found for change: " ++ change_id)
  | some review =>
      let p := add_comment review file line_start line_end author text
        commit_id now fresh_id
      .ok (saveReview store p.1, p.1, p.2)

/-- `ReviewStore::find_thread_mut` folded with the modification applied to
the found thread: exact id match first, then prefix matching with the usual
zero/ambiguous errors. -/
def modifyThread (threads : List Thread) (pfx : String) (f : Thread → Thread) :
    Except String (List Thread) :=
  if threads.any (fun t => t.id == pfx) then
    .ok (updateFirstThread pfx f threads)
  else
    match threads.filter (fun t => t.id.startsWith pfx) with
    | [] => .error ("Thread not found: " ++ pfx)
    | [t] => .ok (updateFirstThread t.id f threads)
    | ms => .error ("Ambiguous thread_id prefix " ++ pfx ++ ": matches "
        ++ toString ms.length ++ " threads")

/-- `ReviewStore::reply_to_thread`, after the document has been loaded. -/
def reply_to_thread (review : Review) (thread_id : String) (author : Author)
    (text : String) (now : Nat) : Except String Review :=
  (modifyThread review.threads thread_id
    (pushComment ⟨author, text, now⟩)).map
    (fun ts => { review with threads := ts })

/-- `ReviewStore::resolve_thread`, after the document has been loaded. -/
def resolve_thread (review : Review) (thread_id : String) :
    Except String Review :=
  (modifyThread review.threads thread_id
    (fun t => { t with status := .Resolved })).map
    (fun ts => { review with threads := ts })

/-- `ReviewStore::reopen_thread`, after the document has been loaded. -/
def reopen_thread (review : Review) (thread_id : String) :
    Except String Review :=
  (modifyThread review.threads thread_id
    (fun t => { t with status := .Open })).map
    (fun ts => { review with threads := ts })

/-- Store-level reply: resolve the change prefix, modify, save. -/
def store_reply_to_thread (store : List Review) (change_id thread_id : String)
    (author : Author) (text : String) (now : Nat) :
    Except String (List Review × Review) :=
  match get_by_prefix store change_id with
  | .error e => .error e
  | .ok none => .error ("Review not found for change: " ++ change_id)
  | .ok (some review) =>
      match reply_to_thread review thread_id author text now with
      | .error e => .error e
      | .ok r => .ok (saveReview store r, r)

/-- Store-level resolve. -/
def store_resolve_thread (store : List Review) (change_id thread_id : String) :
    Except String (List Review × Review) :=
  match get_by_prefix store change_id with
  | .error e => .error e
  | .ok none => .error ("Review not found for change: " ++ change_id)
  | .ok (some review) =>
      match resolve_thread review thread_id with
      | .error e => .error e
      | .ok r => .ok (saveReview store r, r)

/-- Store-level reopen. -/
def store_reopen_thread (store : List Review) (change_id thread_id : String) :
    Except String (List Review × Review) :=
  match get_by_prefix store change_id with
  | .error e => .error e
  | .ok none => .error ("Review not found for change: " ++ change_id)
  | .ok (some review) =>
      match reopen_thread review thread_id with
      | .error e => .error e
      | .ok r => .ok (saveReview store r, r)

/-- `add_pending_revision_if_needed` (src/api.rs lines 566-585): append a
virtual pending revision at read time when the DVCS current commit differs
from the last recorded revision. -/
def add_pending_revision_if_needed (review : Review)
    (current_commit_id : String) (now : Nat) : Review :=
  let has_pending : Bool :=
    match review.revisions.getLast? with
    | some last_rev => last_rev.commit_id != current_commit_id
    | none => true
  if has_pending then
    let next_number := (review.revisions.getLast?.map (fun r => r.number + 1)).getD 1
    { review with revisions := review.revisions ++
        [{ number := next_number, commit_id := current_commit_id,
           created_at := now, description := none, is_pending := true }] }
  else review

/-! ## C4: persisted revisions are never pending; the read path appends at
most one pending revision, last -/

/-- No revision of the document is pending. -/
def noPending (r : Review) : Prop :=
  ∀ rev ∈ r.revisions, rev.is_pending = false

/-- Every persisted document has only non-pending revisions. -/
def storeNoPending (store : List Review) : Prop :=
  ∀ r ∈ store, noPending r

theorem noPending_record_revision {r : Review} (h : noPending r)
    (commit_id : String) (description : Option String) (now : Nat) :
    noPending (record_revision r commit_id description now).1 := by
  intro rev hrev
  simp only [record_revision, List.mem_append, List.mem_singleton] at hrev
  rcases hrev with hrev | hrev
  · exact h rev hrev
  · subst hrev; rfl

theorem noPending_add_comment {r : Review} (h : noPending r)
    (file : String) (ls le : Nat) (author : Author)
    (text commit_id : String) (now : Nat) (fid : String) :
    noPending (add_comment r file ls le author text commit_id now fid).1 := by
  intro rev hrev
  unfold add_comment at hrev
  by_cases hc : r.revisions.getLast?.map (fun rv => rv.commit_id) ≠ some commit_id
  · simp only [if_pos hc] at hrev
    cases hfind : (({ r with revisions := r.revisions ++
        [{ number := r.revisions.length + 1, commit_id := commit_id,
           created_at := now, description := none, is_pending := false }] } :
        Review).threads.find? (fun t =>
        t.file == file && t.line_start == ls && t.line_end == le)).map
        (fun t => t.id) with
    | some id =>
        rw [hfind] at hrev
        simp only [List.mem_append, List.mem_singleton] at hrev
        rcases hrev with hrev | hrev
        · exact h rev hrev
        · subst hrev; rfl
    | none =>
        rw [hfind] at hrev
        simp only [List.mem_append, List.mem_singleton] at hrev
        rcases hrev with hrev | hrev
        · exact h rev hrev
        · subst hrev; rfl
  · simp only [if_neg hc] at hrev
    cases hfind : (({ r with working_commit_id := some commit_id } :
        Review).threads.find? (fun t =>
        t.file == file && t.line_start == ls && t.line_end == le)).map
        (fun t => t.id) with
    | some id => rw [hfind] at hrev; exact h rev hrev
    | none => rw [hfind] at hrev; exact h rev hrev

theorem revisions_reply_to_thread {r r' : Review} {tid : String}
    {author : Author} {text : String} {now : Nat}
    (h : reply_to_thread r tid author text now = .ok r') :
    r'.revisions = r.revisions := by
  unfold reply_to_thread at h
  cases hm : modifyThread r.threads tid (pushComment ⟨author, text, now⟩) with
  | error e => rw [hm] at h; cases h
  | ok ts => rw [hm] at h; cases h; rfl

theorem revisions_resolve_thread {r r' : Review} {tid : String}
    (h : resolve_thread r tid = .ok r') : r'.revisions = r.revisions := by
  unfold resolve_thread at h
  cases hm : modifyThread r.threads tid (fun t => { t with status := .Resolved }) with
  | error e => rw [hm] at h; cases h
  | ok ts => rw [hm] at h; cases h; rfl

theorem revisions_reopen_thread {r r' : Review} {tid : String}
    (h : reopen_thread r tid = .ok r') : r'.revisions = r.revisions := by
  unfold reopen_thread at h
  cases hm : modifyThread r.threads tid (fun t => { t with status := .Open }) with
  | error e => rw [hm] at h; cases h
  | ok ts => rw [hm] at h; cases h; rfl

theorem storeNoPending_save {store : List Review} {r : Review}
    (hs : storeNoPending store) (hr : noPending r) :
    storeNoPending (saveReview store r) := by
  intro x hx
  unfold saveReview at hx
  by_cases hany : store.any (fun y => y.change_id == r.change_id)
  · simp only [if_pos hany] at hx
    obtain ⟨y, hy, hxy⟩ := List.mem_map.mp hx
    by_cases hid : y.change_id == r.change_id
    · rw [if_pos hid] at hxy; subst hxy; exact hr
    · rw [if_neg hid] at hxy; subst hxy; exact hs y hy
  · simp only [if_neg hany, List.mem_append, List.mem_singleton] at hx
    rcases hx with hx | hx
    · exact hs x hx
    · subst hx; exact hr

theorem mem_of_getReview {store : List Review} {cid : String} {r : Review}
    (h : getReview store cid = some r) : r ∈ store :=
  List.mem_of_find?_eq_some h

theorem mem_of_get_by_prefix {store : List Review} {pfx : String} {r : Review}
    (h : get_by_prefix store pfx = .ok (some r)) : r ∈ store := by
  unfold get_by_prefix at h
  cases hg : getReview store pfx with
  | some rv =>
      rw [hg] at h
      simp only [Except.ok.injEq, Option.some.injEq] at h
      subst h
      exact mem_of_getReview hg
  | none =>
      rw [hg] at h
      cases hf : store.filter (fun x =>
          (reviewFileName x).startsWith pfx && (reviewFileName x).endsWith ".json") with
      | nil => rw [hf] at h; cases h
      | cons y ys =>
          cases ys with
          | nil =>
              rw [hf] at h
              simp only [Except.ok.injEq, Option.some.injEq] at h
              subst h
              exact List.mem_of_mem_filter (hf ▸ List.mem_singleton.mpr rfl)
          | cons z zs => rw [hf] at h; cases h

/-- Behaviour of the read-path enrichment on a document with no pending
revisions: the pending revision is appended exactly when the current commit
differs from the last recorded one (or none exists), numbered
`last.number + 1` (or 1); afterwards at most one revision is pending and it
is the last. -/
theorem add_pending_spec (r : Review) (cur : String) (now : Nat)
    (hnp : noPending r) :
    (r.revisions.getLast?.map (fun rev => rev.commit_id) = some cur →
      add_pending_revision_if_needed r cur now = r)
    ∧ (r.revisions.getLast?.map (fun rev => rev.commit_id) ≠ some cur →
      (add_pending_revision_if_needed r cur now).revisions =
        r.revisions ++
          [{ number := (r.revisions.getLast?.map (fun rev => rev.number + 1)).getD 1,
             commit_id := cur, created_at := now, description := none,
             is_pending := true }])
    ∧ ((add_pending_revision_if_needed r cur now).revisions.filter
        (fun rev => rev.is_pending)).length ≤ 1
    ∧ (∀ rev ∈ (add_pending_revision_if_needed r cur now).revisions,
        rev.is_pending = true →
        (add_pending_revision_if_needed r cur now).revisions.getLast? = some rev) := by
  have hfilter : r.revisions.filter (fun rev => rev.is_pending) = [] := by
    rw [List.filter_eq_nil_iff]
    intro rev hrev
    simp [hnp rev hrev]
  have hpend : (match r.revisions.getLast? with
      | some last_rev => last_rev.commit_id != cur
      | none => true) =
      decide (r.revisions.getLast?.map (fun rev => rev.commit_id) ≠ some cur) := by
    cases hl : r.revisions.getLast? with
    | none => simp
    | some lr => simp [bne, beq_eq_decide]
  constructor
  · intro heq
    unfold add_pending_revision_if_needed
    rw [hpend, heq]
    simp
  constructor
  · intro hne
    unfold add_pending_revision_if_needed
    rw [hpend]
    simp only [decide_eq_true (by exact hne), if_true]
  constructor
  · unfold add_pending_revision_if_needed
    rw [hpend]
    by_cases hc : r.revisions.getLast?.map (fun rev => rev.commit_id) ≠ some cur
    · simp only [decide_eq_true hc, if_true, List.filter_append, hfilter]
      simp
    · simp only [decide_eq_false hc, Bool.false_eq_true, if_false, hfilter]
      simp
  · intro rev hrev hpending
    unfold add_pending_revision_if_needed at hrev ⊢
    rw [hpend] at hrev ⊢
    by_cases hc : r.revisions.getLast?.map (fun rev => rev.commit_id) ≠ some cur
    · simp only [decide_eq_true hc, if_true] at hrev ⊢
      simp only [List.mem_append, List.mem_singleton] at hrev
      rcases hrev with hrev | hrev
      · rw [hnp rev hrev] at hpending; cases hpending
      · subst hrev
        exact List.getLast?_concat _
    · simp only [decide_eq_false hc, Bool.false_eq_true, if_false] at hrev ⊢
      rw [hnp rev hrev] at hpending
      cases hpending

/-- C4.  After every store mutation no persisted revision is pending; the
review returned by the read path has at most one pending revision, it is
the last, and it is appended exactly when the DVCS current commit differs
from the last recorded revision (number = last + 1, or 1 when none). -/
theorem c4_pending_revisions_virtual_only
    (store : List Review) (cid base file text commit cur tid fid : String)
    (ls le now : Nat) (author : Author) (desc : Option String)
    (hs : storeNoPending store) :
    storeNoPending (get_or_create store cid base commit now).1
    ∧ (∀ st r n, store_record_revision store cid commit desc now = .ok (st, r, n) →
        storeNoPending st)
    ∧ (∀ st r t, store_add_comment store cid file ls le author text commit now fid
        = .ok (st, r, t) → storeNoPending st)
    ∧ (∀ st r, store_reply_to_thread store cid tid author text now = .ok (st, r) →
        storeNoPending st)
    ∧ (∀ st r, store_resolve_thread store cid tid = .ok (st, r) → storeNoPending st)
    ∧ (∀ st r, store_reopen_thread store cid tid = .ok (st, r) → storeNoPending st)
    ∧ (∀ r ∈ store,
        (r.revisions.getLast?.map (fun rev => rev.commit_id) = some cur →
          add_pending_revision_if_needed r cur now = r)
        ∧ (r.revisions.getLast?.map (fun rev => rev.commit_id) ≠ some cur →
          (add_pending_revision_if_needed r cur now).revisions =
            r.revisions ++
              [{ number := (r.revisions.getLast?.map (fun rev => rev.number + 1)).getD 1,
                 commit_id := cur, created_at := now, description := none,
                 is_pending := true }])
        ∧ ((add_pending_revision_if_needed r cur now).revisions.filter
            (fun rev => rev.is_pending)).length ≤ 1
        ∧ (∀ rev ∈ (add_pending_revision_if_needed r cur now).revisions,
            rev.is_pending = true →
            (add_pending_revision_if_needed r cur now).revisions.getLast? = some rev)) := by
  refine ⟨?_, ?_, ?_, ?_, ?_, ?_, ?_⟩
  · unfold get_or_create
    cases hg : getReview store cid with
    | some review =>
        by_cases hw : review.working_commit_id = none
        · simp only [if_pos hw]
          refine storeNoPending_save hs ?_
          intro rev hrev
          exact hs review (mem_of_getReview hg) rev hrev
        · simp only [if_neg hw]
          exact hs
    | none =>
        refine storeNoPending_save hs ?_
        intro rev hrev
        cases hrev
  · intro st r n h
    unfold store_record_revision at h
    cases hg : getReview store cid with
    | none => rw [hg] at h; cases h
    | some review =>
        rw [hg] at h
        simp only [Except.ok.injEq, Prod.mk.injEq] at h
        obtain ⟨rfl, -, -⟩ := h
        exact storeNoPending_save hs
          (noPending_record_revision (hs review (mem_of_getReview hg)) _ _ _)
  · intro st r t h
    unfold store_add_comment at h
    cases hg : getReview store cid with
    | none => rw [hg] at h; cases h
    | some review =>
        rw [hg] at h
        simp only [Except.ok.injEq, Prod.mk.injEq] at h
        obtain ⟨rfl, -, -⟩ := h
        exact storeNoPending_save hs
          (noPending_add_comment (hs review (mem_of_getReview hg)) _ _ _ _ _ _ _ _)
  · intro st r h
    unfold store_reply_to_thread at h
    split at h
    · cases h
    · cases h
    · rename_i review hg
      split at h
      · cases h
      · rename_i r2 hrt
        simp only [Except.ok.injEq, Prod.mk.injEq] at h
        obtain ⟨rfl, -⟩ := h
        refine storeNoPending_save hs ?_
        intro rev hrev
        rw [revisions_reply_to_thread hrt] at hrev
        exact hs review ( mem_of_get_by_prefix hg) rev hrev
  · intro st r h
    unfold store_resolve_thread at h
    split at h
    · cases h
    · cases h
    · rename_i review hg
      split at h
      · cases h
      · rename_i r2 hrt
        simp only [Except.ok.injEq, Prod.mk.injEq] at h
        obtain ⟨rfl, -⟩ := h
        refine storeNoPending_save hs ?_
        intro rev hrev
        rw [revisions_resolve_thread hrt] at hrev
        exact hs review ( mem_of_get_by_prefix hg) rev hrev
  · intro st r h
    unfold store_reopen_thread at h
    split at h
    · cases h
    · cases h
    · rename_i review hg
      split at h
      · cases h
      · rename_i r2 hrt
        simp only [Except.ok.injEq, Prod.mk.injEq] at h
        obtain ⟨rfl, -⟩ := h
        refine storeNoPending_save hs ?_
        intro rev hrev
        rw [revisions_reopen_thread hrt] at hrev
        exact hs review ( mem_of_get_by_prefix hg) rev hrev
  · intro r hr
    exact add_pending_spec r cur now (hs r hr)

/-- C4 witness: a store holding one review with a single recorded revision
at commit `k1`; reading it at the newer commit `k2` appends the pending
revision number 2. -/
theorem c4_witness :
    storeNoPending (get_or_create
      [{ change_id := "c1", base := "@-", created_at := 0, threads := [],
         revisions := [{ number := 1, commit_id := "k1", created_at := 0,
                         description := none, is_pending := false }],
         working_commit_id := some "k1" }] "c1" "@-" "k1" 1).1 ∧
    (add_pending_revision_if_needed
      { change_id := "c1", base := "@-", created_at := 0, threads := [],
        revisions := [{ number := 1, commit_id := "k1", created_at := 0,
                        description := none, is_pending := false }],
        working_commit_id := some "k1" } "k2" 1).revisions =
      [{ number := 1, commit_id := "k1", created_at := 0,
         description := none, is_pending := false },
       { number := 2, commit_id := "k2", created_at := 1,
         description := none, is_pending := true }] := by
  have hs : storeNoPending
      [{ change_id := "c1", base := "@-", created_at := 0, threads := [],
         revisions := [{ number := 1, commit_id := "k1", created_at := 0,
                         description := none, is_pending := false }],
         working_commit_id := some "k1" }] := by
    intro r hr rev hrev
    rcases List.mem_singleton.mp hr with rfl
    rcases List.mem_singleton.mp hrev with rfl
    rfl
  constructor
  · exact (c4_pending_revisions_virtual_only _ "c1" "@-" "f" "t" "k1" "k2" "t1" "id"
      1 1 1 Author.User none hs).1
  · have h := ((c4_pending_revisions_virtual_only _ "c1" "@-" "f" "t" "k1" "k2" "t1" "id"
      1 1 1 Author.User none hs).2.2.2.2.2.2 _ (List.mem_singleton.mpr rfl)).2.1
      (by decide)
    exact h.trans (by decide)

/-! ## C5: add_comment keys threads by (file, line_start, line_end) -/

theorem find?_decomp {α : Type} {p : α → Bool} :
    ∀ {l : List α} {a : α}, l.find? p = some a →
      ∃ pre post, l = pre ++ a :: post ∧ (∀ x ∈ pre, p x = false) ∧ p a = true := by
  intro l
  induction l with
  | nil => intro a h; cases h
  | cons x rest ih =>
      intro a h
      rw [List.find?_cons] at h
      cases hp : p x with
      | true =>
          rw [hp] at h
          simp only [Option.some.injEq] at h
          subst h
          refine ⟨[], rest, rfl, ?_, hp⟩
          intro y hy
          exact absurd hy (List.not_mem_nil y)
      | false =>
          rw [hp] at h
          obtain ⟨pre, post, hl, hpre, hpa⟩ := ih h
          exact ⟨x :: pre, post, by simp [hl], by
            intro y hy
            rcases List.mem_cons.mp hy with rfl | hy
            · exact hp
            · exact hpre y hy, hpa⟩

theorem updateFirstThread_append {tid : String} {f : Thread → Thread} :
    ∀ (pre : List Thread) (t : Thread) (post : List Thread),
      (∀ x ∈ pre, x.id ≠ tid) → t.id = tid →
      updateFirstThread tid f (pre ++ t :: post) = pre ++ f t :: post := by
  intro pre
  induction pre with
  | nil =>
      intro t post _ ht
      simp [updateFirstThread, ht]
  | cons x pre' ih =>
      intro t post hpre ht
      have hx : x.id ≠ tid := hpre x (by simp)
      simp only [List.cons_append, updateFirstThread, if_neg hx]
      rw [show (pre'.append (t :: post)) = pre' ++ t :: post from rfl]
      rw [ih t post (fun y hy => hpre y (by simp [hy])) ht]

/-- The revision list `add_comment` leaves behind. -/
def addCommentRevs (r : Review) (commit : String) (now : Nat) : List Revision :=
  if r.revisions.getLast?.map (fun rev => rev.commit_id) = some commit
  then r.revisions
  else r.revisions ++
    [{ number := r.revisions.length + 1, commit_id := commit,
       created_at := now, description := none, is_pending := false }]

theorem add_comment_revisions (r : Review) (file : String) (ls le : Nat)
    (author : Author) (text commit : String) (now : Nat) (fid : String) :
    (add_comment r file ls le author text commit now fid).1.revisions =
      addCommentRevs r commit now := by
  unfold add_comment addCommentRevs
  by_cases hc : r.revisions.getLast?.map (fun rev => rev.commit_id) = some commit
  · rw [if_neg (not_not_intro hc), if_pos hc]
    cases hf : (r.threads.find? (fun t =>
        t.file == file && t.line_start == ls && t.line_end == le)).map
        (fun t => t.id) with
    | some id => simp only [hf]
    | none => simp only [hf]
  · rw [if_pos hc, if_neg hc]
    cases hf : (r.threads.find? (fun t =>
        t.file == file && t.line_start == ls && t.line_end == le)).map
        (fun t => t.id) with
    | some id => simp only [hf]
    | none => simp only [hf]

theorem add_comment_find_none (r : Review) (file : String) (ls le : Nat)
    (author : Author) (text commit : String) (now : Nat) (fid : String)
    (hf : r.threads.find? (fun t =>
        t.file == file && t.line_start == ls && t.line_end == le) = none) :
    (add_comment r file ls le author text commit now fid).2 = fid
    ∧ (add_comment r file ls le author text commit now fid).1.threads =
        r.threads ++
          [{ id := fid, file := file, line_start := ls, line_end := le,
             status := .Open, comments := [⟨author, text, now⟩],
             created_at_commit := some commit,
             created_at_revision :=
               (addCommentRevs r commit now).getLast?.map (fun rev => rev.number),
             display_line_start := none, display_line_end := none,
             is_displaced := false, is_deleted := false }] := by
  unfold add_comment
  by_cases hc : r.revisions.getLast?.map (fun rev => rev.commit_id) = some commit
  · rw [if_neg (not_not_intro hc)]
    simp only [hf, Option.map_none']
    refine ⟨by trivial, ?_⟩
    unfold addCommentRevs
    rw [if_pos hc]
  · rw [if_pos hc]
    simp only [hf, Option.map_none']
    refine ⟨by trivial, ?_⟩
    unfold addCommentRevs
    rw [if_neg hc]

theorem add_comment_find_some (r : Review) (file : String) (ls le : Nat)
    (author : Author) (text commit : String) (now : Nat) (fid : String)
    (t0 : Thread)
    (hf : r.threads.find? (fun t =>
        t.file == file && t.line_start == ls && t.line_end == le) = some t0) :
    (add_comment r file ls le author text commit now fid).2 = t0.id
    ∧ (add_comment r file ls le author text commit now fid).1.threads =
        updateFirstThread t0.id (pushComment ⟨author, text, now⟩) r.threads := by
  unfold add_comment
  by_cases hc : r.revisions.getLast?.map (fun rev => rev.commit_id) = some commit
  · rw [if_neg (not_not_intro hc)]
    simp only [hf, Option.map_some']
    exact ⟨by trivial, by trivial⟩
  · rw [if_pos hc]
    simp only [hf, Option.map_some']
    exact ⟨by trivial, by trivial⟩

/-- C5.  `add_comment` first appends a revision exactly when the supplied
commit differs from the last recorded one; a comment for an already-present
`(file, line_start, line_end)` triple is appended to that existing thread
(the first matching one), otherwise a new thread is appended with
`created_at_commit` the caller-supplied commit, `created_at_revision` the
current revision number, status Open and the single new comment. -/
theorem c5_add_comment_keying
    (r : Review) (file text commit fid : String) (ls le now : Nat)
    (author : Author)
    (hids : (r.threads.map (fun t => t.id)).Nodup) :
    ((add_comment r file ls le author text commit now fid).1.revisions =
       if r.revisions.getLast?.map (fun rev => rev.commit_id) = some commit
       then r.revisions
       else r.revisions ++
         [{ number := r.revisions.length + 1, commit_id := commit,
            created_at := now, description := none, is_pending := false }])
    ∧ ((∃ t ∈ r.threads,
          (t.file == file && t.line_start == ls && t.line_end == le) = true) →
        ∃ pre t post,
          r.threads = pre ++ t :: post
          ∧ (∀ t' ∈ pre,
              (t'.file == file && t'.line_start == ls && t'.line_end == le) = false)
          ∧ t.file = file ∧ t.line_start = ls ∧ t.line_end = le
          ∧ (add_comment r file ls le author text commit now fid).2 = t.id
          ∧ (add_comment r file ls le author text commit now fid).1.threads =
              pre ++ { t with comments := t.comments ++ [⟨author, text, now⟩] } :: post)
    ∧ ((∀ t ∈ r.threads, ¬(t.file = file ∧ t.line_start = ls ∧ t.line_end = le)) →
        (add_comment r file ls le author text commit now fid).2 = fid
        ∧ (add_comment r file ls le author text commit now fid).1.threads =
            r.threads ++
              [{ id := fid, file := file, line_start := ls, line_end := le,
                 status := .Open, comments := [⟨author, text, now⟩],
                 created_at_commit := some commit,
                 created_at_revision :=
                   (addCommentRevs r commit now).getLast?.map (fun rev => rev.number),
                 display_line_start := none, display_line_end := none,
                 is_displaced := false, is_deleted := false }]) := by
  refine ⟨?_, ?_, ?_⟩
  · rw [add_comment_revisions]
    rfl
  · intro hex
    have hsome : (r.threads.find? (fun t =>
        t.file == file && t.line_start == ls && t.line_end == le)).isSome := by
      rw [List.find?_isSome]
      exact hex
    obtain ⟨t0, hf⟩ := Option.isSome_iff_exists.mp hsome
    obtain ⟨pre, post, hl, hpre, hpt⟩ := find?_decomp hf
    obtain ⟨hid, hthreads⟩ :=
      add_comment_find_some r file ls le author text commit now fid t0 hf
    simp only [Bool.and_eq_true, beq_iff_eq] at hpt
    refine ⟨pre, t0, post, hl, hpre, hpt.1.1, hpt.1.2, hpt.2, hid, ?_⟩
    rw [hthreads, hl]
    have hprenid : ∀ x ∈ pre, x.id ≠ t0.id := by
      intro x hx heq
      have : (r.threads.map (fun t => t.id)).Nodup := hids
      rw [hl] at this
      simp only [List.map_append, List.map_cons] at this
      rw [List.nodup_append] at this
      have hdisj := this.2.2
      exact hdisj (List.mem_map.mpr ⟨x, hx, rfl⟩) (by simp [heq])
    rw [updateFirstThread_append pre t0 post hprenid rfl]
    rfl
  · intro hall
    have hnone : r.threads.find? (fun t =>
        t.file == file && t.line_start == ls && t.line_end == le) = none := by
      rw [List.find?_eq_none]
      intro t ht
      have := hall t ht
      simp only [Bool.and_eq_true, beq_iff_eq]
      intro hcontra
      exact this ⟨hcontra.1.1, hcontra.1.2, hcontra.2⟩
    exact add_comment_find_none r file ls le author text commit now fid hnone

/-- C5 witness: commenting again at `(src/main.rs, 10, 15)` under a new
commit appends to the existing thread and records revision 2. -/
theorem c5_witness :
    (add_comment
      { change_id := "c1", base := "@-", created_at := 0,
        threads := [{ id := "t1", file := "src/main.rs", line_start := 10,
                      line_end := 15, status := .Open,
                      comments := [⟨Author.User, "first", 0⟩],
                      created_at_commit := some "k1",
                      created_at_revision := some 1,
                      display_line_start := none, display_line_end := none,
                      is_displaced := false, is_deleted := false }],
        revisions := [{ number := 1, commit_id := "k1", created_at := 0,
                        description := none, is_pending := false }],
        working_commit_id := some "k1" }
      "src/main.rs" 10 15 Author.User "second" "k2" 1 "t2").2 = "t1" := by
  have h := (c5_add_comment_keying
    { change_id := "c1", base := "@-", created_at := 0,
      threads := [{ id := "t1", file := "src/main.rs", line_start := 10,
                    line_end := 15, status := .Open,
                    comments := [⟨Author.User, "first", 0⟩],
                    created_at_commit := some "k1",
                    created_at_revision := some 1,
                    display_line_start := none, display_line_end := none,
                    is_displaced := false, is_deleted := false }],
      revisions := [{ number := 1, commit_id := "k1", created_at := 0,
                      description := none, is_pending := false }],
      working_commit_id := some "k1" }
    "src/main.rs" "second" "k2" "t2" 10 15 1 Author.User (by decide)).2.1
    (by decide)
  obtain ⟨pre, t, post, hl, -, -, -, -, hid, -⟩ := h
  rw [hid]
  have : pre = [] := by
    cases pre with
    | nil => rfl
    | cons x xs =>
        exfalso
        have := congrArg List.length hl
        simp at this
  subst this
  simp only [List.nil_append] at hl
  injection hl with h1 _
  rw [← h1]

/-! ## C10: get_by_prefix tries an exact match first -/

/-- The stored filenames matching a prefix search. -/
def prefixHits (store : List Review) (pfx : String) : List Review :=
  store.filter (fun r =>
    (reviewFileName r).startsWith pfx && (reviewFileName r).endsWith ".json")

/-- C10.  An exact `change_id` match is returned even when the prefix also
starts other stored filenames; the ambiguity error occurs only when there
is no exact match and at least two filenames start with the prefix; no
exact match and zero filename matches yields `None`, not an error. -/
theorem c10_get_by_prefix_exact_match_first (store : List Review) (pfx : String) :
    ((∃ r ∈ store, r.change_id = pfx) →
      ∃ r, get_by_prefix store pfx = .ok (some r) ∧ r.change_id = pfx)
    ∧ (∀ e, get_by_prefix store pfx = .error e →
        getReview store pfx = none ∧ 2 ≤ (prefixHits store pfx).length)
    ∧ (getReview store pfx = none → prefixHits store pfx = [] →
        get_by_prefix store pfx = .ok none) := by
  refine ⟨?_, ?_, ?_⟩
  · intro hex
    have hsome : (store.find? (fun r => r.change_id == pfx)).isSome := by
      rw [List.find?_isSome]
      obtain ⟨r, hr, heq⟩ := hex
      exact ⟨r, hr, by simp [heq]⟩
    obtain ⟨r0, hr0⟩ := Option.isSome_iff_exists.mp hsome
    refine ⟨r0, ?_, ?_⟩
    · unfold get_by_prefix
      rw [show getReview store pfx = some r0 from hr0]
    · have := List.find?_some hr0
      simpa using this
  · intro e h
    unfold get_by_prefix at h
    cases hg : getReview store pfx with
    | some r => rw [hg] at h; cases h
    | none =>
        rw [hg] at h
        refine ⟨rfl, ?_⟩
        unfold prefixHits
        cases hf : store.filter (fun r =>
            (reviewFileName r).startsWith pfx && (reviewFileName r).endsWith ".json") with
        | nil => rw [hf] at h; cases h
        | cons y ys =>
            cases ys with
            | nil => rw [hf] at h; cases h
            | cons z zs => simp
  · intro hg hf
    unfold get_by_prefix
    rw [hg]
    unfold prefixHits at hf
    rw [hf]

/-- C10 witness: with reviews stored for change ids `ab` and `abc`, the
prefix `ab` resolves to the review for `ab` exactly, despite also being a
proper prefix of `abc.json`. -/
theorem c10_witness :
    ∃ r, get_by_prefix
      [mkReview "ab" "@-" "k1" 0, mkReview "abc" "@-" "k2" 0] "ab"
      = .ok (some r) ∧ r.change_id = "ab" :=
  (c10_get_by_prefix_exact_match_first
      [mkReview "ab" "@-" "k1" 0, mkReview "abc" "@-" "k2" 0] "ab").1
    ⟨mkReview "ab" "@-" "k1" 0, by decide, rfl⟩

/-! ## C8: reviews are created by get_or_create, not by add_comment -/

/-- C8 counterexample: adding a comment for a change with no stored review
document does not create one — it fails with a not-found error. -/
theorem c8_counterexample :
    store_add_comment [] "abc123" "src/main.rs" 10 15 Author.User
      "This looks wrong" "commit1" 0 "t1"
      = .error "Review not found for change: abc123" := rfl

theorem getReview_saveReview_self (store : List Review) (r : Review) :
    getReview (saveReview store r) r.change_id = some r := by
  unfold saveReview
  by_cases hany : store.any (fun x => x.change_id == r.change_id)
  · rw [if_pos hany]
    unfold getReview
    rw [List.find?_map]
    have hcong : ((fun x : Review => x.change_id == r.change_id) ∘
        (fun x => if x.change_id == r.change_id then r else x)) =
        (fun x : Review => x.change_id == r.change_id) := by
      funext x
      by_cases hx : x.change_id == r.change_id
      · have hx' : x.change_id = r.change_id := by simpa using hx
        simp [hx']
      · simp only [Function.comp_apply, if_neg hx]
    rw [hcong]
    obtain ⟨x, hx, hpx⟩ := List.any_eq_true.mp hany
    have hsome : (store.find? (fun x => x.change_id == r.change_id)).isSome := by
      rw [List.find?_isSome]
      exact ⟨x, hx, hpx⟩
    obtain ⟨x0, hx0⟩ := Option.isSome_iff_exists.mp hsome
    rw [hx0]
    have := List.find?_some hx0
    simp only [Option.map_some']
    rw [if_pos this]
  · rw [if_neg hany]
    unfold getReview
    rw [List.find?_append]
    have hnone : store.find? (fun x => x.change_id == r.change_id) = none := by
      rw [List.find?_eq_none]
      intro x hx
      exact (List.any_eq_false.mp (Bool.not_eq_true _ ▸ hany) x hx)
    rw [hnone]
    simp [List.find?]

theorem getReview_saveReview_isSome (store : List Review) (r : Review)
    (cid : String) (h : (getReview store cid).isSome) :
    (getReview (saveReview store r) cid).isSome := by
  unfold saveReview
  by_cases hany : store.any (fun x => x.change_id == r.change_id)
  · rw [if_pos hany]
    unfold getReview at h ⊢
    rw [List.find?_map]
    have hcong : ((fun x : Review => x.change_id == cid) ∘
        (fun x => if x.change_id == r.change_id then r else x)) =
        (fun x : Review => x.change_id == cid) := by
      funext x
      by_cases hx : x.change_id == r.change_id
      · have hx' : x.change_id = r.change_id := by simpa using hx
        simp [hx']
      · simp only [Function.comp_apply, if_neg hx]
    rw [hcong]
    simpa using h
  · rw [if_neg hany]
    unfold getReview at h ⊢
    rw [List.find?_append]
    obtain ⟨x0, hx0⟩ := Option.isSome_iff_exists.mp h
    rw [hx0]
    rfl

/-- C8, amended.  A review document is created by `get_or_create` (the
explicit create / create-or-fetch paths) and documents are never deleted by
the store mutations; adding a comment for a change with no stored review
document fails with a not-found error rather than creating the document. -/
theorem c8_reviews_created_on_explicit_create_never_deleted
    (store : List Review) (cid base file text commit fid cid2 : String)
    (ls le now : Nat) (author : Author) :
    (getReview store cid = none →
      store_add_comment store cid file ls le author text commit now fid
        = .error ("Review not found for change: " ++ cid))
    ∧ (getReview store cid = none →
      getReview (get_or_create store cid base commit now).1 cid
        = some (mkReview cid base commit now))
    ∧ ((getReview store cid2).isSome →
        (getReview (get_or_create store cid base commit now).1 cid2).isSome)
    ∧ (∀ st r t,
        store_add_comment store cid file ls le author text commit now fid
          = .ok (st, r, t) →
        (getReview store cid2).isSome → (getReview st cid2).isSome) := by
  refine ⟨?_, ?_, ?_, ?_⟩
  · intro hg
    unfold store_add_comment
    rw [hg]
  · intro hg
    unfold get_or_create
    rw [hg]
    exact getReview_saveReview_self store (mkReview cid base commit now)
  · intro h
    unfold get_or_create
    cases hg : getReview store cid with
    | some review =>
        by_cases hw : review.working_commit_id = none
        · simp only [if_pos hw]
          exact getReview_saveReview_isSome store _ cid2 h
        · simp only [if_neg hw]
          exact h
    | none => exact getReview_saveReview_isSome store _ cid2 h
  · intro st r t hok h
    unfold store_add_comment at hok
    cases hg : getReview store cid with
    | none => rw [hg] at hok; cases hok
    | some review =>
        rw [hg] at hok
        simp only [Except.ok.injEq, Prod.mk.injEq] at hok
        obtain ⟨rfl, -, -⟩ := hok
        exact getReview_saveReview_isSome store _ cid2 h

/-- C8 witness for the amended claim: on the empty store, `add_comment`
fails with not-found while `get_or_create` creates the document. -/
theorem c8_witness :
    store_add_comment [] "abc123" "src/main.rs" 10 15 Author.User
        "This looks wrong" "commit1" 0 "t1"
      = .error "Review not found for change: abc123"
    ∧ getReview (get_or_create [] "abc123" "@-" "commit1" 0).1 "abc123"
      = some (mkReview "abc123" "@-" "commit1" 0) := by
  constructor
  · exact (c8_reviews_created_on_explicit_create_never_deleted
      [] "abc123" "@-" "src/main.rs" "This looks wrong" "commit1" "t1" "x"
      10 15 0 Author.User).1 rfl
  · exact (c8_reviews_created_on_explicit_create_never_deleted
      [] "abc123" "@-" "src/main.rs" "This looks wrong" "commit1" "t1" "x"
      10 15 0 Author.User).2.1 rfl

/-! ## Substring containment, for checking response messages -/

/-- `p` is a prefix of the second list. -/
def listStart {α : Type} [DecidableEq α] : List α → List α → Bool
  | [], _ => true
  | _ :: _, [] => false
  | a :: p, b :: l => a == b && listStart p l

/-- `p` occurs as a contiguous sublist. -/
def listSub {α : Type} [DecidableEq α] (p : List α) : List α → Bool
  | [] => p.isEmpty
  | b :: l => listStart p (b :: l) || listSub p l

/-- `pat` occurs as a substring of `s`. -/
def strContainsSub (s pat : String) : Bool := listSub pat.toList s.toList

theorem listStart_self_append {α : Type} [DecidableEq α] :
    ∀ (p t : List α), listStart p (p ++ t) = true := by
  intro p
  induction p with
  | nil => intro t; rfl
  | cons a p' ih => intro t; simp [listStart, ih]

theorem listSub_of_listStart {α : Type} [DecidableEq α]
    {p l : List α} (h : listStart p l = true) : listSub p l = true := by
  cases l with
  | nil =>
      cases p with
      | nil => rfl
      | cons a p' => cases h
  | cons b l' => simp [listSub, h]

theorem listSub_append_left {α : Type} [DecidableEq α]
    (x : List α) {p l : List α} (h : listSub p l = true) :
    listSub p (x ++ l) = true := by
  induction x with
  | nil => simpa using h
  | cons a x' ih => simp [listSub, ih]

theorem strContainsSub_of_split (s pre suf pat : String)
    (h : s = pre ++ (pat ++ suf)) : strContainsSub s pat = true := by
  subst h
  unfold strContainsSub
  have h1 : (pre ++ (pat ++ suf)).toList = pre.toList ++ (pat.toList ++ suf.toList) := by
    rw [show ∀ a b : String, (a ++ b).toList = a.toList ++ b.toList from
      fun a b => String.data_append a b]
    rw [show (pat ++ suf).toList = pat.toList ++ suf.toList from
      String.data_append pat suf]
  rw [h1]
  exact listSub_append_left _ (listSub_of_listStart (listStart_self_append _ _))

/-! ## Single-change merge gate (src/api.rs lines 770-872)

The handler's environment is passed in explicitly: the change the trunk
bookmark currently points to, the target change as reported by the DVCS,
and the stored review document.  The outcome records the HTTP status, the
structured response body, and where the trunk bookmark was moved. -/

structure Change where
  change_id : String
  commit_id : String
  description : String
  author : String
  timestamp : String
  empty : Bool
  conflict : Bool
  is_working_copy : Bool
  parent_change_ids : List String
  deriving DecidableEq, Repr

structure MergeResponse where
  success : Bool
  message : String
  deriving DecidableEq, Repr

structure MergeOutcome where
  status : Nat
  response : MergeResponse
  moved_to : Option String
  deriving DecidableEq, Repr

/-- The pending-changes test of the merge gate: no review, no revisions, or
a current commit differing from the last recorded revision. -/
def mergeHasPending (change : Change) (review : Option Review) : Bool :=
  match review.bind (fun r => r.revisions.getLast?) with
  | some last_rev => change.commit_id != last_rev.commit_id
  | none => true

/-- The number of open threads on the stored review, 0 when none exists. -/
def openThreadCount (review : Option Review) : Nat :=
  match review with
  | some r => (r.threads.filter (fun t => t.status == ThreadStatus.Open)).length
  | none => 0

/-- Whitespace as trimmed by `str::trim` (ASCII portion). -/
def isWhitespaceChar (c : Char) : Bool :=
  c == ' ' || c == '\t' || c == '\n' || c == '\r'

/-- Models `description.trim().is_empty()`: every character is whitespace. -/
def trimIsEmpty (s : String) : Bool :=
  s.toList.all isWhitespaceChar

/-- `merge_change` (src/api.rs): the already-at-main check first (never
forceable, HTTP 200 with a failure body), then — unless forced — the
empty-description, pending-revision and open-thread checks (HTTP 400), and
finally the bookmark move. -/
def merge_change (main_change_id : Option String) (change : Change)
    (review : Option Review) (force : Bool) : MergeOutcome :=
  if main_change_id = some change.change_id then
    ⟨200, ⟨false, "Change is already at main"⟩, none⟩
  else if !force && trimIsEmpty change.description then
    ⟨400, ⟨false, "Cannot merge: commit message is empty. Set a description with `jj describe -m \"...\"`"⟩, none⟩
  else if !force && mergeHasPending change review then
    ⟨400, ⟨false, "Cannot merge: pending changes not yet recorded as a revision. Use force=true to override."⟩, none⟩
  else if !force && decide (0 < openThreadCount review) then
    ⟨400, ⟨false, "Cannot merge: " ++ toString (openThreadCount review)
        ++ " open thread(s). Use force=true to override."⟩, none⟩
  else
    ⟨200, ⟨true, "Merged: main now at " ++ change.change_id.take 8⟩,
      some change.change_id⟩

/-- Concrete change for the C6 counterexample. -/
def c6Change : Change :=
  { change_id := "c1", commit_id := "k2", description := "hello",
    author := "u", timestamp := "t", empty := false, conflict := false,
    is_working_copy := true, parent_change_ids := [] }

/-- Concrete review for the C6 counterexample: one open thread, and the
last recorded revision is at commit `k1` while the change is at `k2`. -/
def c6Review : Review :=
  { change_id := "c1", base := "@-", created_at := 0,
    threads := [{ id := "t1", file := "f.rs", line_start := 1, line_end := 1,
                  status := .Open, comments := [⟨Author.User, "x", 0⟩],
                  created_at_commit := some "k1", created_at_revision := some 1,
                  display_line_start := none, display_line_end := none,
                  is_displaced := false, is_deleted := false }],
    revisions := [{ number := 1, commit_id := "k1", created_at := 0,
                    description := none, is_pending := false }],
    working_commit_id := some "k1" }

/-- C6 counterexample: a change whose stored review has an open thread but
whose current commit is not recorded as a revision fails with HTTP 400 whose
message is about pending changes and does not contain "open thread". -/
theorem c6_counterexample :
    0 < openThreadCount (some c6Review)
    ∧ (merge_change (some "other") c6Change (some c6Review) false).status = 400
    ∧ (merge_change (some "other") c6Change (some c6Review) false).response.success = false
    ∧ strContainsSub
        (merge_change (some "other") c6Change (some c6Review) false).response.message
        "open thread" = false := by
  refine ⟨by decide, by decide, by decide, by decide⟩

/-- C6, amended.  For a change not already at the trunk bookmark, with a
non-empty description, whose stored review records the current commit as
its last revision and has at least one open thread: merging with
`force = false` fails with HTTP 400 and a `success = false` body whose
message contains "open thread"; with `force = true` it succeeds and moves
the trunk bookmark to the change.  The already-at-trunk precondition fails
regardless of the force flag. -/
theorem c6_merge_gate_open_threads
    (main : Option String) (change : Change) (r : Review)
    (hnotmain : main ≠ some change.change_id)
    (hdesc : trimIsEmpty change.description = false)
    (hnopending : r.revisions.getLast?.map (fun rev => rev.commit_id)
      = some change.commit_id)
    (hopen : 0 < openThreadCount (some r)) :
    ((merge_change main change (some r) false).status = 400
     ∧ (merge_change main change (some r) false).response.success = false
     ∧ strContainsSub (merge_change main change (some r) false).response.message
         "open thread" = true
     ∧ (merge_change main change (some r) false).moved_to = none)
    ∧ ((merge_change main change (some r) true).response.success = true
       ∧ (merge_change main change (some r) true).moved_to = some change.change_id)
    ∧ (∀ f : Bool,
        (merge_change (some change.change_id) change (some r) f).response.success = false
        ∧ (merge_change (some change.change_id) change (some r) f).moved_to = none) := by
  have hpend : mergeHasPending change (some r) = false := by
    unfold mergeHasPending
    cases hl : r.revisions.getLast? with
    | none => rw [hl] at hnopending; cases hnopending
    | some lr =>
        rw [hl] at hnopending
        simp only [Option.map_some', Option.some.injEq] at hnopending
        simp [Option.bind, hl, bne, hnopending]
  have hcnt : decide (0 < openThreadCount (some r)) = true := by
    simpa using hopen
  refine ⟨?_, ?_, ?_⟩
  · have hout : merge_change main change (some r) false =
        ⟨400, ⟨false, "Cannot merge: " ++ toString (openThreadCount (some r))
            ++ " open thread(s). Use force=true to override."⟩, none⟩ := by
      unfold merge_change
      rw [if_neg hnotmain]
      rw [show (!false && trimIsEmpty change.description) = false by simp [hdesc]]
      rw [show (!false && mergeHasPending change (some r)) = false by simp [hpend]]
      rw [show (!false && decide (0 < openThreadCount (some r))) = true by simp [hcnt]]
      simp
    rw [hout]
    refine ⟨rfl, rfl, ?_, rfl⟩
    apply strContainsSub_of_split _
      ("Cannot merge: " ++ toString (openThreadCount (some r)) ++ " ")
      "(s). Use force=true to override."
    have hblank : (" " : String) ++ ("open thread" ++ "(s). Use force=true to override.")
        = " open thread(s). Use force=true to override." := by decide
    rw [String.append_assoc ("Cannot merge: " ++ toString (openThreadCount (some r)))
      " " ("open thread" ++ "(s). Use force=true to override."), hblank]
  · constructor
    · show (merge_change main change (some r) true).response.success = true
      unfold merge_change
      rw [if_neg hnotmain]
      rfl
    · show (merge_change main change (some r) true).moved_to = some change.change_id
      unfold merge_change
      rw [if_neg hnotmain]
      rfl
  · intro f
    constructor
    · show (merge_change (some change.change_id) change (some r) f).response.success = false
      unfold merge_change
      rw [if_pos rfl]
    · show (merge_change (some change.change_id) change (some r) f).moved_to = none
      unfold merge_change
      rw [if_pos rfl]

/-- C6 witness: the counterexample state with the pending revision recorded
(the scenario of spec S3 right after `add_comment` auto-records revision at
the current commit). -/
theorem c6_witness :
    ((merge_change (some "other") c6Change
        (some { c6Review with
          revisions := [{ number := 1, commit_id := "k2", created_at := 0,
                          description := none, is_pending := false }] }) false).status = 400
     ∧ (merge_change (some "other") c6Change
        (some { c6Review with
          revisions := [{ number := 1, commit_id := "k2", created_at := 0,
                          description := none, is_pending := false }] }) false).response.success = false
     ∧ strContainsSub (merge_change (some "other") c6Change
        (some { c6Review with
          revisions := [{ number := 1, commit_id := "k2", created_at := 0,
                          description := none, is_pending := false }] }) false).response.message
         "open thread" = true
     ∧ (merge_change (some "other") c6Change
        (some { c6Review with
          revisions := [{ number := 1, commit_id := "k2", created_at := 0,
                          description := none, is_pending := false }] }) false).moved_to = none)
    ∧ ((merge_change (some "other") c6Change
        (some { c6Review with
          revisions := [{ number := 1, commit_id := "k2", created_at := 0,
                          description := none, is_pending := false }] }) true).response.success = true
       ∧ (merge_change (some "other") c6Change
        (some { c6Review with
          revisions := [{ number := 1, commit_id := "k2", created_at := 0,
                          description := none, is_pending := false }] }) true).moved_to = some "c1") :=
  ⟨(c6_merge_gate_open_threads (some "other") c6Change _
      (by decide) (by decide) (by decide) (by decide)).1,
   (c6_merge_gate_open_threads (some "other") c6Change _
      (by decide) (by decide) (by decide) (by decide)).2.1⟩

/-! ## Session store and session merge (src/session.rs)

The session store (one JSON document per session name) is modelled as a
list of `Session` documents, and the DVCS bookmark table as an association
list from bookmark name to the change id it points at. -/

inductive SessionStatus where
  | Active : SessionStatus
  | Merged : SessionStatus
  deriving DecidableEq, Repr

structure PushEvent where
  summary : String
  change_id : String
  commit_id : String
  timestamp : Nat
  deriving DecidableEq, Repr

structure Session where
  name : String
  clone_path : String
  bookmark : String
  base_change_id : String
  base_bookmark : String
  status : SessionStatus
  created_at : Nat
  pushes : List PushEvent
  changes : List String
  deriving DecidableEq, Repr

/-- `jj.get_bookmark`: resolve a bookmark name to a change id. -/
def lookupBookmark (bms : List (String × String)) (name : String) : Option String :=
  (bms.find? (fun b => b.1 == name)).map (fun b => b.2)

/-- `jj.move_bookmark`: point the bookmark at a change id. -/
def setBookmark (bms : List (String × String)) (name value : String) :
    List (String × String) :=
  if bms.any (fun b => b.1 == name) then
    bms.map (fun b => if b.1 == name then (name, value) else b)
  else bms ++ [(name, value)]

/-- `jj.bookmark_delete`. -/
def deleteBookmark (bms : List (String × String)) (name : String) :
    List (String × String) :=
  bms.filter (fun b => b.1 != name)

/-- `SessionStore::save`: write the document at `<name>.json`, replacing
any existing document of that name. -/
def saveSession (store : List Session) (s : Session) : List Session :=
  if store.any (fun x => x.name == s.name) then
    store.map (fun x => if x.name == s.name then s else x)
  else store ++ [s]

/-- `session_merge(name)` (src/session.rs lines 330-397): load the session,
require Active, resolve the session bookmark to its tip, move the base
bookmark there, delete the session bookmark, persist the Merged status and
re-parent Active children stacked on the merged session's bookmark. -/
def session_merge (store : List Session) (bms : List (String × String))
    (name : String) : Except String (List Session × List (String × String)) :=
  match store.find? (fun s => s.name == name) with
  | none => .error ("Session " ++ name ++ " not found")
  | some s =>
      if s.status ≠ SessionStatus.Active then
        .error ("Session " ++ name ++ " is not active")
      else
        match lookupBookmark bms s.bookmark with
        | none => .error ("Bookmark " ++ s.bookmark ++ " not found — was it pushed?")
        | some session_tip =>
            let bms := setBookmark bms s.base_bookmark session_tip
            let bms := deleteBookmark bms s.bookmark
            let merged := { s with status := SessionStatus.Merged }
            let store := saveSession store merged
            let store := store.map (fun child =>
              if child.status = SessionStatus.Active
                  ∧ child.base_bookmark = s.bookmark then
                { child with base_bookmark := s.base_bookmark }
              else child)
            .ok (store, bms)

theorem lookupBookmark_set_self (bms : List (String × String)) (name value : String) :
    lookupBookmark (setBookmark bms name value) name = some value := by
  unfold setBookmark
  by_cases hany : bms.any (fun b => b.1 == name)
  · rw [if_pos hany]
    unfold lookupBookmark
    rw [List.find?_map]
    obtain ⟨x, hx, hpx⟩ := List.any_eq_true.mp hany
    have hsome : (bms.find? (fun b =>
        ((fun b : String × String => if b.1 == name then (name, value) else b) b).1
          == name)).isSome := by
      rw [List.find?_isSome]
      refine ⟨x, hx, ?_⟩
      simp only [if_pos hpx]
      simp
    obtain ⟨x0, hx0⟩ := Option.isSome_iff_exists.mp hsome
    rw [show (fun b : String × String =>
        b.1 == name) ∘ (fun b => if b.1 == name then (name, value) else b) =
        (fun b : String × String =>
          ((fun b : String × String => if b.1 == name then (name, value) else b) b).1
            == name) from rfl]
    rw [hx0]
    have hp := List.find?_some hx0
    by_cases hx0p : x0.1 == name
    · simp only [Option.map_some']
      rw [if_pos hx0p]
    · have hp' : (x0.1 == name) = true := by
        simp [hx0p] at hp
      exact absurd hp' hx0p
  · rw [if_neg hany]
    unfold lookupBookmark
    rw [List.find?_append]
    have hnone : bms.find? (fun b => b.1 == name) = none := by
      rw [List.find?_eq_none]
      intro x hx
      exact List.any_eq_false.mp (Bool.not_eq_true _ ▸ hany) x hx
    rw [hnone]
    simp [List.find?]

theorem lookupBookmark_set_ne (bms : List (String × String))
    (name value other : String) (h : other ≠ name) :
    lookupBookmark (setBookmark bms name value) other = lookupBookmark bms other := by
  unfold setBookmark
  by_cases hany : bms.any (fun b => b.1 == name)
  · rw [if_pos hany]
    unfold lookupBookmark
    rw [List.find?_map]
    have hcong : ((fun b : String × String => b.1 == other) ∘
        (fun b => if b.1 == name then (name, value) else b)) =
        (fun b : String × String => b.1 == other) := by
      funext b
      by_cases hb : b.1 == name
      · have hb' : b.1 = name := by simpa using hb
        simp only [Function.comp_apply, if_pos hb]
        rw [hb']
      · simp only [Function.comp_apply, if_neg hb]
    rw [hcong]
    cases hf : bms.find? (fun b => b.1 == other) with
    | none => rfl
    | some b0 =>
        have hp := List.find?_some hf
        have hb0 : b0.1 = other := by simpa using hp
        by_cases hbn : b0.1 == name
        · have : other = name := by
            have := (by simpa using hbn : b0.1 = name)
            rw [← hb0, this]
          exact absurd this h
        · simp only [Option.map_some', if_neg hbn]
  · rw [if_neg hany]
    unfold lookupBookmark
    rw [List.find?_append]
    cases hf : bms.find? (fun b => b.1 == other) with
    | some b0 => rfl
    | none =>
        simp [List.find?, show (name == other) = false from by simp [Ne.symm h]]

theorem lookupBookmark_delete_self (bms : List (String × String)) (name : String) :
    lookupBookmark (deleteBookmark bms name) name = none := by
  unfold lookupBookmark deleteBookmark
  rw [show (bms.filter (fun b => b.1 != name)).find? (fun b => b.1 == name)
      = none from ?_]
  · rfl
  · rw [List.find?_eq_none]
    intro x hx
    have := List.of_mem_filter hx
    simp only [bne_iff_ne, ne_eq] at this
    simpa using this

theorem lookupBookmark_delete_ne (bms : List (String × String))
    (name other : String) (h : other ≠ name) :
    lookupBookmark (deleteBookmark bms name) other = lookupBookmark bms other := by
  unfold lookupBookmark deleteBookmark
  congr 1
  induction bms with
  | nil => rfl
  | cons b rest ih =>
      by_cases hb : (b.1 != name) = true
      · simp only [List.filter_cons, hb, if_true]
        rw [List.find?_cons, List.find?_cons]
        cases hp : (b.1 == other) with
        | true => rfl
        | false => exact ih
      · have hb' : (b.1 != name) = false := by
          simpa using hb
        simp only [List.filter_cons, hb', Bool.false_eq_true, if_false]
        rw [List.find?_cons]
        have hbn : b.1 = name := by
          simpa using hb'
        have hp : (b.1 == other) = false := by
          simp [hbn, Ne.symm h]
        rw [hp]
        exact ih

theorem mem_saveSession {store : List Session} {s x : Session}
    (hx : x ∈ saveSession store s) : x = s ∨ (x ∈ store ∧ x.name ≠ s.name) := by
  unfold saveSession at hx
  by_cases hany : store.any (fun y => y.name == s.name)
  · rw [if_pos hany] at hx
    obtain ⟨y, hy, hxy⟩ := List.mem_map.mp hx
    by_cases hyn : y.name == s.name
    · rw [if_pos hyn] at hxy; exact Or.inl hxy.symm
    · rw [if_neg hyn] at hxy
      subst hxy
      exact Or.inr ⟨hy, by simpa using hyn⟩
  · rw [if_neg hany] at hx
    rcases List.mem_append.mp hx with hx | hx
    · refine Or.inr ⟨hx, ?_⟩
      have := List.any_eq_false.mp (Bool.not_eq_true _ ▸ hany) x hx
      simpa using this
    · exact Or.inl (List.mem_singleton.mp hx)

theorem saveSession_mem_of {store : List Session} {s c : Session}
    (hc : c ∈ store) (hname : c.name ≠ s.name) : c ∈ saveSession store s := by
  unfold saveSession
  by_cases hany : store.any (fun y => y.name == s.name)
  · rw [if_pos hany]
    refine List.mem_map.mpr ⟨c, hc, ?_⟩
    rw [if_neg (by simpa using hname)]
  · rw [if_neg hany]
    exact List.mem_append.mpr (Or.inl hc)

theorem saveSession_mem_self (store : List Session) (s : Session) :
    s ∈ saveSession store s := by
  unfold saveSession
  by_cases hany : store.any (fun y => y.name == s.name)
  · rw [if_pos hany]
    obtain ⟨y, hy, hpy⟩ := List.any_eq_true.mp hany
    refine List.mem_map.mpr ⟨y, hy, ?_⟩
    rw [if_pos hpy]
  · rw [if_neg hany]
    exact List.mem_append.mpr (Or.inr (List.mem_singleton.mpr rfl))

/-- Merging an Active session through the CLI operator `session_merge`
(src/session.rs) persists it as Merged, moves the base bookmark to the
session tip, deletes the session bookmark, rewrites the `base_bookmark` of
every Active child stacked on the merged session's bookmark to the merged
session's base bookmark, and afterwards no Active session has the merged
session's bookmark as its `base_bookmark`. -/
theorem session_merge_reparents_children
    (store : List Session) (bms : List (String × String)) (name : String)
    (s : Session) (tip : String)
    (hfind : store.find? (fun x => x.name == name) = some s)
    (hactive : s.status = SessionStatus.Active)
    (htip : lookupBookmark bms s.bookmark = some tip)
    (hdistinct : s.bookmark ≠ s.base_bookmark) :
    ∃ store' bms', session_merge store bms name = .ok (store', bms')
      ∧ (∀ x ∈ store', x.name = name → x.status = SessionStatus.Merged)
      ∧ lookupBookmark bms' s.base_bookmark = some tip
      ∧ lookupBookmark bms' s.bookmark = none
      ∧ (∀ c ∈ store, c.name ≠ name → c.status = SessionStatus.Active →
          c.base_bookmark = s.bookmark →
          { c with base_bookmark := s.base_bookmark } ∈ store')
      ∧ (∀ c ∈ store', c.status = SessionStatus.Active →
          c.base_bookmark ≠ s.bookmark) := by
  have hsname : s.name = name := by
    simpa using List.find?_some hfind
  refine ⟨(saveSession store { s with status := SessionStatus.Merged }).map
      (fun child =>
        if child.status = SessionStatus.Active ∧ child.base_bookmark = s.bookmark
        then { child with base_bookmark := s.base_bookmark } else child),
    deleteBookmark (setBookmark bms s.base_bookmark tip) s.bookmark,
    ?_, ?_, ?_, ?_, ?_, ?_⟩
  · unfold session_merge
    rw [hfind]
    dsimp only
    rw [if_neg (not_not_intro hactive), htip]
  · intro x hx hxname
    obtain ⟨y, hy, hxy⟩ := List.mem_map.mp hx
    rcases mem_saveSession hy with rfl | ⟨hyst, hyne⟩
    · subst hxy
      by_cases hc : ({ s with status := SessionStatus.Merged } : Session).status
          = SessionStatus.Active
          ∧ ({ s with status := SessionStatus.Merged } : Session).base_bookmark
            = s.bookmark
      · cases hc.1
      · rw [if_neg hc]
    · exfalso
      apply hyne
      rw [← hxy] at hxname
      by_cases hc : y.status = SessionStatus.Active ∧ y.base_bookmark = s.bookmark
      · rw [if_pos hc] at hxname
        rw [show ({ y with base_bookmark := s.base_bookmark } : Session).name
          = y.name from rfl] at hxname
        rw [hxname, hsname]
      · rw [if_neg hc] at hxname
        rw [hxname, hsname]
  · rw [lookupBookmark_delete_ne _ _ _ (Ne.symm hdistinct)]
    exact lookupBookmark_set_self bms s.base_bookmark tip
  · exact lookupBookmark_delete_self _ s.bookmark
  · intro c hc hcname hcactive hcbase
    refine List.mem_map.mpr ⟨c, ?_, ?_⟩
    · exact saveSession_mem_of hc (by rw [hsname]; exact hcname)
    · rw [if_pos ⟨hcactive, hcbase⟩]
  · intro c hc hcactive
    obtain ⟨y, hy, hxy⟩ := List.mem_map.mp hc
    by_cases hcond : y.status = SessionStatus.Active ∧ y.base_bookmark = s.bookmark
    · rw [if_pos hcond] at hxy
      rw [← hxy]
      exact Ne.symm hdistinct
    · rw [if_neg hcond] at hxy
      subst hxy
      intro hbase
      exact hcond ⟨hcactive, hbase⟩

/-- A concrete run of the CLI operator: merging session `parent` (bookmark
`session/parent`, based on `main`) re-parents the Active child `child` onto
`main`; the merged session is persisted as Merged and `session/parent` is
gone. -/
theorem session_merge_reparents_example :
    ∃ store' bms',
      session_merge
        [{ name := "parent", clone_path := ".aipair/sessions/parent/repo",
           bookmark := "session/parent", base_change_id := "b0",
           base_bookmark := "main", status := .Active, created_at := 0,
           pushes := [], changes := [] },
         { name := "child", clone_path := ".aipair/sessions/child/repo",
           bookmark := "session/child", base_change_id := "b1",
           base_bookmark := "session/parent", status := .Active, created_at := 1,
           pushes := [], changes := [] }]
        [("main", "m0"), ("session/parent", "tipP"), ("session/child", "tipC")]
        "parent" = .ok (store', bms')
      ∧ (∀ x ∈ store', x.name = "parent" → x.status = SessionStatus.Merged)
      ∧ lookupBookmark bms' "main" = some "tipP"
      ∧ lookupBookmark bms' "session/parent" = none
      ∧ (∀ c ∈ store', c.status = SessionStatus.Active →
          c.base_bookmark ≠ "session/parent") := by
  obtain ⟨store', bms', h1, h2, h3, h4, -, h6⟩ :=
    session_merge_reparents_children
      [{ name := "parent", clone_path := ".aipair/sessions/parent/repo",
         bookmark := "session/parent", base_change_id := "b0",
         base_bookmark := "main", status := .Active, created_at := 0,
         pushes := [], changes := [] },
       { name := "child", clone_path := ".aipair/sessions/child/repo",
         bookmark := "session/child", base_change_id := "b1",
         base_bookmark := "session/parent", status := .Active, created_at := 1,
         pushes := [], changes := [] }]
      [("main", "m0"), ("session/parent", "tipP"), ("session/child", "tipC")]
      "parent"
      { name := "parent", clone_path := ".aipair/sessions/parent/repo",
        bookmark := "session/parent", base_change_id := "b0",
        base_bookmark := "main", status := .Active, created_at := 0,
        pushes := [], changes := [] }
      "tipP" (by decide) rfl (by decide) (by decide)
  exact ⟨store', bms', h1, h2, h3, h4, h6⟩

/-- `merge_session` (src/api.rs lines 1186-1249): the HTTP session-merge
endpoint.  It loads the session, requires Active, resolves the session
bookmark to its tip, moves the hard-coded `main` bookmark (not the
session's `base_bookmark`) to that tip, deletes the session bookmark and
persists the Merged status.  It contains no re-parenting of child
sessions.  Returns the response body and the updated session store and
bookmark table. -/
def merge_session (store : List Session) (bms : List (String × String))
    (name : String) :
    MergeResponse × List Session × List (String × String) :=
  match store.find? (fun s => s.name == name) with
  | none => (⟨false, "Session " ++ name ++ " not found"⟩, store, bms)
  | some session =>
      if session.status ≠ SessionStatus.Active then
        (⟨false, "Session " ++ name ++ " is not active"⟩, store, bms)
      else
        match lookupBookmark bms session.bookmark with
        | none =>
            (⟨false, "Bookmark " ++ session.bookmark
                ++ " not found — was it pushed?"⟩, store, bms)
        | some session_tip =>
            let bms := setBookmark bms "main" session_tip
            let bms := deleteBookmark bms session.bookmark
            let merged := { session with status := SessionStatus.Merged }
            let store := saveSession store merged
            (⟨true, "Session " ++ name ++ " merged into main at "
                ++ session_tip.take 12⟩, store, bms)

/-- The parent session of the failing input: Active, based on `main`. -/
def c7Parent : Session :=
  { name := "parent", clone_path := ".aipair/sessions/parent/repo",
    bookmark := "session/parent", base_change_id := "b0",
    base_bookmark := "main", status := .Active, created_at := 0,
    pushes := [], changes := [] }

/-- The child session of the failing input: Active, stacked on the parent
session's bookmark. -/
def c7Child : Session :=
  { name := "child", clone_path := ".aipair/sessions/child/repo",
    bookmark := "session/child", base_change_id := "b1",
    base_bookmark := "session/parent", status := .Active, created_at := 1,
    pushes := [], changes := [] }

def c7Store : List Session := [c7Parent, c7Child]

def c7Bms : List (String × String) :=
  [("main", "m0"), ("session/parent", "tipP"), ("session/child", "tipC")]

/-- C7, code bug in the HTTP endpoint.  On a store with an Active parent
session (bookmark `session/parent`, based on `main`) and an Active child
session stacked on it (`base_bookmark = "session/parent"`), the endpoint
`merge_session "parent"` reports success, persists the parent as Merged
and deletes the bookmark `session/parent` — but the child session survives
unchanged: it is still Active with the deleted `session/parent` as its
`base_bookmark`, so the claimed re-parenting does not happen on this path.
Moreover `merge_session "child"` moves the hard-coded `main` bookmark to
the child tip instead of the child's `base_bookmark` `session/parent`,
which stays at the parent tip.  The CLI operator `session_merge` on the
same input does re-parent (`session_merge_reparents_children`). -/
theorem c7_api_merge_session_no_reparent :
    (merge_session c7Store c7Bms "parent").1.success = true
    ∧ (merge_session c7Store c7Bms "parent").2.1 =
        [{ c7Parent with status := SessionStatus.Merged }, c7Child]
    ∧ lookupBookmark (merge_session c7Store c7Bms "parent").2.2
        "session/parent" = none
    ∧ c7Child.status = SessionStatus.Active
    ∧ c7Child.base_bookmark = "session/parent"
    ∧ lookupBookmark (merge_session c7Store c7Bms "child").2.2
        "main" = some "tipC"
    ∧ lookupBookmark (merge_session c7Store c7Bms "child").2.2
        "session/parent" = some "tipP"
    ∧ (session_merge c7Store c7Bms "parent").toOption.map
        (fun r => r.1.filter (fun c =>
          decide (c.status = SessionStatus.Active
            ∧ c.base_bookmark = "session/parent"))) = some [] := by
  refine ⟨by decide, by decide, by decide, by decide, by decide, by decide,
    by decide, by decide⟩

/-! ## Feedback snippet extraction (src/review.rs lines 534-631)

`extract_nearby_hunks` works on the lines of the diff text (Rust iterates
`diff_text.lines()`); it is modelled here on that line list directly.
`str::starts_with`, `str::ends_with`, `split_whitespace`,
`trim_start_matches` and `parse::<usize>` are modelled by the character
list functions below. -/

/-- `str::starts_with`. -/
def strStarts (s pat : String) : Bool := listStart pat.toList s.toList

/-- The value of an ASCII digit. -/
def digitVal (c : Char) : Option Nat :=
  if c = '0' then some 0 else if c = '1' then some 1
  else if c = '2' then some 2 else if c = '3' then some 3
  else if c = '4' then some 4 else if c = '5' then some 5
  else if c = '6' then some 6 else if c = '7' then some 7
  else if c = '8' then some 8 else if c = '9' then some 9
  else none

/-- Accumulate a decimal number; any non-digit fails. -/
def parseNatGo : List Char → Nat → Option Nat
  | [], acc => some acc
  | c :: rest, acc =>
      match digitVal c with
      | some d => parseNatGo rest (acc * 10 + d)
      | none => none

/-- `str::parse::<usize>` on the digits-only strings of hunk headers:
empty input fails. -/
def strToNat (s : String) : Option Nat :=
  match s.toList with
  | [] => none
  | l => parseNatGo l 0

/-- `split_whitespace` (ASCII whitespace). -/
def splitWsGo : List Char → List Char → List String
  | [], acc => if acc.isEmpty then [] else [String.mk acc.reverse]
  | c :: rest, acc =>
      if isWhitespaceChar c then
        if acc.isEmpty then splitWsGo rest []
        else String.mk acc.reverse :: splitWsGo rest []
      else splitWsGo rest (c :: acc)

def split_whitespace (s : String) : List String := splitWsGo s.toList []

/-- `trim_start_matches('+')`. -/
def dropLeadingPlus (s : String) : String :=
  String.mk (s.toList.dropWhile (fun c => c = '+'))

/-- `split_once(',')`. -/
def splitOnceCommaGo : List Char → Option (List Char × List Char)
  | [] => none
  | c :: rest =>
      if c = ',' then some ([], rest)
      else (splitOnceCommaGo rest).map (fun p => (c :: p.1, p.2))

def splitOnceComma (s : String) : Option (String × String) :=
  (splitOnceCommaGo s.toList).map (fun p => (String.mk p.1, String.mk p.2))

/-- `parse_new_file_range` (src/review.rs lines 620-631): the `+new,count`
part of a `@@` header, count defaulting to 1. -/
def parse_new_file_range (header : String) : Option (Nat × Nat) :=
  let parts := split_whitespace header
  if parts.length < 4 then none
  else
    match parts.get? 2 with
    | none => none
    | some part2 =>
        let new_part := dropLeadingPlus part2
        match splitOnceComma new_part with
        | some (a, b) =>
            match strToNat a, strToNat b with
            | some x, some y => some (x, y)
            | _, _ => none
        | none => (strToNat new_part).map (fun x => (x, 1))

/-- A diff line annotated with its new-file position (absent for deletes),
the first pass of `extract_nearby_hunks`. -/
structure DiffLine where
  text : String
  new_line : Option Nat
  deriving DecidableEq, Repr

/-- First pass: skip file headers, anchor the new-file cursor on `@@`
headers, advance it on context and added lines. -/
def firstPassGo : List String → Nat → List DiffLine
  | [], _ => []
  | l :: rest, new_pos =>
      if strStarts l "diff --git" || strStarts l "index " || strStarts l "--- "
          || strStarts l "+++ " then
        firstPassGo rest new_pos
      else if strStarts l "@@" then
        match parse_new_file_range l with
        | some p => ⟨l, some p.1⟩ :: firstPassGo rest p.1
        | none => ⟨l, some new_pos⟩ :: firstPassGo rest new_pos
      else if strStarts l "-" then
        ⟨l, none⟩ :: firstPassGo rest new_pos
      else
        ⟨l, some new_pos⟩ :: firstPassGo rest (new_pos + 1)

/-- Second pass: emit lines in the window, `@@` headers whose new-file
range intersects it, and delete lines adjacent to included lines. -/
def secondPassGo (target_start target_end : Nat) :
    List DiffLine → Bool → List String
  | [], _ => []
  | dl :: rest, last_was_included =>
      if strStarts dl.text "@@" then
        match parse_new_file_range dl.text with
        | some p =>
            if p.1 ≤ target_end ∧ target_start ≤ p.1 + p.2 then
              dl.text :: secondPassGo target_start target_end rest false
            else secondPassGo target_start target_end rest false
        | none => secondPassGo target_start target_end rest false
      else
        let inc : Bool :=
          match dl.new_line with
          | some n => decide (target_start ≤ n) && decide (n ≤ target_end)
          | none => last_was_included
        if inc then dl.text :: secondPassGo target_start target_end rest true
        else secondPassGo target_start target_end rest false

/-- `extract_nearby_hunks(diff_text, line_start, line_end, padding)`,
as the list of emitted lines. -/
def extract_nearby_hunks (diffLines : List String)
    (line_start line_end padding : Nat) : List String :=
  secondPassGo (line_start - padding) (line_end + padding)
    (firstPassGo diffLines 0) false

/-- The emitted text: each line followed by a newline. -/
def extract_nearby_hunks_text (diffLines : List String)
    (line_start line_end padding : Nat) : String :=
  String.join ((extract_nearby_hunks diffLines line_start line_end padding).map
    (fun l => l ++ "\n"))

/-! ## C9: only window lines, adjacent deletes, intersecting headers -/

theorem strStarts_at_not_dash {l : String}
    (h : strStarts l "@@" = true) : strStarts l "-" = false := by
  unfold strStarts at h ⊢
  rw [show (String.toList "@@") = ['@', '@'] from rfl] at h
  rw [show (String.toList "-") = ['-'] from rfl]
  cases hl : l.toList with
  | nil => rw [hl] at h; cases h
  | cons c rest =>
      rw [hl] at h
      simp only [listStart, Bool.and_eq_true, beq_iff_eq] at h
      rcases h with ⟨hc, _⟩
      subst hc
      simp only [listStart]
      rw [show (('-' : Char) == '@') = false from by decide]
      simp

theorem firstPass_dash_iff :
    ∀ (lines : List String) (np : Nat) (dl : DiffLine),
      dl ∈ firstPassGo lines np →
      (strStarts dl.text "-" = true ↔ dl.new_line = none) := by
  intro lines
  induction lines with
  | nil => intro np dl h; cases h
  | cons l rest ih =>
      intro np dl h
      unfold firstPassGo at h
      by_cases h1 : (strStarts l "diff --git" || strStarts l "index "
          || strStarts l "--- " || strStarts l "+++ ") = true
      · rw [if_pos h1] at h
        exact ih np dl h
      · rw [if_neg h1] at h
        by_cases h2 : strStarts l "@@" = true
        · rw [if_pos h2] at h
          cases hp : parse_new_file_range l with
          | some p =>
              rw [hp] at h
              rcases List.mem_cons.mp h with rfl | h
              · simp [strStarts_at_not_dash h2]
              · exact ih p.1 dl h
          | none =>
              rw [hp] at h
              rcases List.mem_cons.mp h with rfl | h
              · simp [strStarts_at_not_dash h2]
              · exact ih np dl h
        · rw [if_neg h2] at h
          by_cases h3 : strStarts l "-" = true
          · rw [if_pos h3] at h
            rcases List.mem_cons.mp h with rfl | h
            · simp [h3]
            · exact ih np dl h
          · rw [if_neg h3] at h
            rcases List.mem_cons.mp h with rfl | h
            · simp [h3]
            · exact ih (np + 1) dl h

theorem secondPass_mem {lo hi : Nat} :
    ∀ (dls : List DiffLine) (flag : Bool) (l : String),
      l ∈ secondPassGo lo hi dls flag →
      (strStarts l "@@" = true ∧
        ∃ s c, parse_new_file_range l = some (s, c) ∧ s ≤ hi ∧ lo ≤ s + c)
      ∨ (∃ dl, dl ∈ dls ∧ dl.text = l ∧ dl.new_line = none)
      ∨ (∃ dl n, dl ∈ dls ∧ dl.text = l ∧ dl.new_line = some n ∧ lo ≤ n ∧ n ≤ hi) := by
  intro dls
  induction dls with
  | nil => intro flag l h; cases h
  | cons dl rest ih =>
      intro flag l h
      unfold secondPassGo at h
      by_cases h1 : strStarts dl.text "@@" = true
      · rw [if_pos h1] at h
        cases hp : parse_new_file_range dl.text with
        | some p =>
            rw [hp] at h
            dsimp only at h
            by_cases hw : p.1 ≤ hi ∧ lo ≤ p.1 + p.2
            · rw [if_pos hw] at h
              rcases List.mem_cons.mp h with rfl | h
              · exact Or.inl ⟨h1, p.1, p.2, hp, hw.1, hw.2⟩
              · rcases ih false l h with hc | ⟨d, hd, ht, hn⟩ | ⟨d, n, hd, ht, hn, hb⟩
                · exact Or.inl hc
                · exact Or.inr (Or.inl ⟨d, List.mem_cons_of_mem _ hd, ht, hn⟩)
                · exact Or.inr (Or.inr ⟨d, n, List.mem_cons_of_mem _ hd, ht, hn, hb⟩)
            · rw [if_neg hw] at h
              rcases ih false l h with hc | ⟨d, hd, ht, hn⟩ | ⟨d, n, hd, ht, hn, hb⟩
              · exact Or.inl hc
              · exact Or.inr (Or.inl ⟨d, List.mem_cons_of_mem _ hd, ht, hn⟩)
              · exact Or.inr (Or.inr ⟨d, n, List.mem_cons_of_mem _ hd, ht, hn, hb⟩)
        | none =>
            rw [hp] at h
            rcases ih false l h with hc | ⟨d, hd, ht, hn⟩ | ⟨d, n, hd, ht, hn, hb⟩
            · exact Or.inl hc
            · exact Or.inr (Or.inl ⟨d, List.mem_cons_of_mem _ hd, ht, hn⟩)
            · exact Or.inr (Or.inr ⟨d, n, List.mem_cons_of_mem _ hd, ht, hn, hb⟩)
      · rw [if_neg h1] at h
        cases hinc : (match dl.new_line with
            | some n => decide (lo ≤ n) && decide (n ≤ hi)
            | none => flag) with
        | true =>
            rw [hinc] at h
            simp only [if_true] at h
            rcases List.mem_cons.mp h with rfl | h
            · cases hn : dl.new_line with
              | none => exact Or.inr (Or.inl ⟨dl, List.mem_cons_self dl rest, rfl, hn⟩)
              | some n =>
                  rw [hn] at hinc
                  simp only [Bool.and_eq_true, decide_eq_true_eq] at hinc
                  exact Or.inr (Or.inr ⟨dl, n, List.mem_cons_self dl rest, rfl, hn,
                    hinc.1, hinc.2⟩)
            · rcases ih true l h with hc | ⟨d, hd, ht, hn⟩ | ⟨d, n, hd, ht, hn, hb⟩
              · exact Or.inl hc
              · exact Or.inr (Or.inl ⟨d, List.mem_cons_of_mem _ hd, ht, hn⟩)
              · exact Or.inr (Or.inr ⟨d, n, List.mem_cons_of_mem _ hd, ht, hn, hb⟩)
        | false =>
            rw [hinc] at h
            simp only [Bool.false_eq_true, if_false] at h
            rcases ih false l h with hc | ⟨d, hd, ht, hn⟩ | ⟨d, n, hd, ht, hn, hb⟩
            · exact Or.inl hc
            · exact Or.inr (Or.inl ⟨d, List.mem_cons_of_mem _ hd, ht, hn⟩)
            · exact Or.inr (Or.inr ⟨d, n, List.mem_cons_of_mem _ hd, ht, hn, hb⟩)

theorem secondPass_head {lo hi : Nat} :
    ∀ (dls : List DiffLine),
      (∀ dl ∈ dls, strStarts dl.text "-" = true → dl.new_line = none) →
      ∀ h, (secondPassGo lo hi dls false).head? = some h →
      strStarts h "-" = false := by
  intro dls
  induction dls with
  | nil => intro _ h hh; cases hh
  | cons dl rest ih =>
      intro hinv h hh
      unfold secondPassGo at hh
      by_cases h1 : strStarts dl.text "@@" = true
      · rw [if_pos h1] at hh
        cases hp : parse_new_file_range dl.text with
        | some p =>
            rw [hp] at hh
            dsimp only at hh
            by_cases hw : p.1 ≤ hi ∧ lo ≤ p.1 + p.2
            · rw [if_pos hw] at hh
              simp only [List.head?_cons, Option.some.injEq] at hh
              subst hh
              exact strStarts_at_not_dash h1
            · rw [if_neg hw] at hh
              exact ih (fun d hd => hinv d (List.mem_cons_of_mem _ hd)) h hh
        | none =>
            rw [hp] at hh
            exact ih (fun d hd => hinv d (List.mem_cons_of_mem _ hd)) h hh
      · rw [if_neg h1] at hh
        cases hn : dl.new_line with
        | none =>
            rw [show (match dl.new_line with
                | some n => decide (lo ≤ n) && decide (n ≤ hi)
                | none => false) = false from by rw [hn]] at hh
            simp only [Bool.false_eq_true, if_false] at hh
            exact ih (fun d hd => hinv d (List.mem_cons_of_mem _ hd)) h hh
        | some n =>
            rw [show (match dl.new_line with
                | some n => decide (lo ≤ n) && decide (n ≤ hi)
                | none => false) = (decide (lo ≤ n) && decide (n ≤ hi)) from by
              rw [hn]] at hh
            cases hb : (decide (lo ≤ n) && decide (n ≤ hi)) with
            | true =>
                rw [hb] at hh
                simp only [if_true, List.head?_cons, Option.some.injEq] at hh
                subst hh
                cases hdash : strStarts dl.text "-" with
                | false => rfl
                | true =>
                    have := hinv dl (List.mem_cons_self dl rest) hdash
                    rw [this] at hn
                    cases hn
            | false =>
                rw [hb] at hh
                simp only [Bool.false_eq_true, if_false] at hh
                exact ih (fun d hd => hinv d (List.mem_cons_of_mem _ hd)) h hh

theorem secondPass_chain {lo hi : Nat} :
    ∀ (dls : List DiffLine) (flag : Bool) (prev : String),
      (∀ dl ∈ dls, strStarts dl.text "-" = true → dl.new_line = none) →
      (flag = true → strStarts prev "@@" = false) →
      List.Chain' (fun a b => strStarts b "-" = true → strStarts a "@@" = false)
        (prev :: secondPassGo lo hi dls flag) := by
  intro dls
  induction dls with
  | nil => intro flag prev _ _; exact List.chain'_singleton prev
  | cons dl rest ih =>
      intro flag prev hinv hprev
      unfold secondPassGo
      by_cases h1 : strStarts dl.text "@@" = true
      · rw [if_pos h1]
        cases hp : parse_new_file_range dl.text with
        | some p =>
            dsimp only
            by_cases hw : p.1 ≤ hi ∧ lo ≤ p.1 + p.2
            · rw [if_pos hw]
              refine List.Chain'.cons ?_ (ih false dl.text
                (fun d hd => hinv d (List.mem_cons_of_mem _ hd))
                (fun hfl => by cases hfl))
              intro hdash
              rw [strStarts_at_not_dash h1] at hdash
              cases hdash
            · rw [if_neg hw]
              exact ih false prev
                (fun d hd => hinv d (List.mem_cons_of_mem _ hd))
                (fun hfl => by cases hfl)
        | none =>
            exact ih false prev
              (fun d hd => hinv d (List.mem_cons_of_mem _ hd))
              (fun hfl => by cases hfl)
      · rw [if_neg h1]
        cases hinc : (match dl.new_line with
            | some n => decide (lo ≤ n) && decide (n ≤ hi)
            | none => flag) with
        | true =>
            simp only [if_true]
            refine List.Chain'.cons ?_ (ih true dl.text
              (fun d hd => hinv d (List.mem_cons_of_mem _ hd))
              (fun _ => Bool.not_eq_true _ ▸ h1))
            intro hdash
            have hnone := hinv dl (List.mem_cons_self dl rest) hdash
            rw [hnone] at hinc
            exact hprev hinc
        | false =>
            simp only [Bool.false_eq_true, if_false]
            exact ih false prev
              (fun d hd => hinv d (List.mem_cons_of_mem _ hd))
              (fun hfl => by cases hfl)

/-- Diff of the scenario in the spec: a 20-line file whose lines 10 and 11
were replaced by `modified 10` and `modified 11`. -/
def c9DiffLines : List String :=
  ["diff --git a/test.rs b/test.rs", "index 0000000..1111111 100644",
   "--- a/test.rs", "+++ b/test.rs", "@@ -1,20 +1,20 @@",
   " line 1", " line 2", " line 3", " line 4", " line 5", " line 6",
   " line 7", " line 8", " line 9",
   "-line 10", "-line 11", "+modified 10", "+modified 11",
   " line 12", " line 13", " line 14", " line 15", " line 16", " line 17",
   " line 18", " line 19", " line 20"]

/-- C9: every line emitted by `extract_nearby_hunks` with padding 5 is an
`@@` header whose parsed new-file range intersects the window
`[ds - 5, de + 5]`, or a delete line, or a line whose first-pass new-file
position lies inside that window; a delete line is never the first emitted
line and never directly follows an `@@` header, so it is adjacent to an
included hunk line; and on the 20-line diff where lines 10 and 11 were
modified, the text emitted for a thread at lines 10-11 contains
`+modified 10` and `-line 10` but neither the line `line 1` nor
`line 20`. -/
theorem c9_snippet_window_and_adjacent_deletes
    (diffLines : List String) (ds de : Nat) :
    (∀ l ∈ extract_nearby_hunks diffLines ds de 5,
       (strStarts l "@@" = true ∧
         ∃ s c, parse_new_file_range l = some (s, c) ∧ s ≤ de + 5 ∧ ds - 5 ≤ s + c)
       ∨ strStarts l "-" = true
       ∨ (∃ dl n, dl ∈ firstPassGo diffLines 0 ∧ dl.text = l ∧
            dl.new_line = some n ∧ ds - 5 ≤ n ∧ n ≤ de + 5))
    ∧ (∀ h, (extract_nearby_hunks diffLines ds de 5).head? = some h →
        strStarts h "-" = false)
    ∧ List.Chain' (fun a b => strStarts b "-" = true → strStarts a "@@" = false)
        (extract_nearby_hunks diffLines ds de 5)
    ∧ (extract_nearby_hunks c9DiffLines 10 11 5 =
        ["@@ -1,20 +1,20 @@", " line 5", " line 6", " line 7", " line 8",
         " line 9", "-line 10", "-line 11", "+modified 10", "+modified 11",
         " line 12", " line 13", " line 14", " line 15", " line 16"]
       ∧ strContainsSub (extract_nearby_hunks_text c9DiffLines 10 11 5)
           "+modified 10" = true
       ∧ strContainsSub (extract_nearby_hunks_text c9DiffLines 10 11 5)
           "-line 10" = true
       ∧ strContainsSub (extract_nearby_hunks_text c9DiffLines 10 11 5)
           ("line 1" ++ "\n") = false
       ∧ strContainsSub (extract_nearby_hunks_text c9DiffLines 10 11 5)
           "line 20" = false) := by
  have hout : extract_nearby_hunks diffLines ds de 5
      = secondPassGo (ds - 5) (de + 5) (firstPassGo diffLines 0) false := rfl
  have hinv : ∀ dl ∈ firstPassGo diffLines 0,
      strStarts dl.text "-" = true → dl.new_line = none :=
    fun dl hd => (firstPass_dash_iff diffLines 0 dl hd).mp
  refine ⟨?_, ?_, ?_, ?_, ?_, ?_, ?_, ?_⟩
  · intro l hl
    rw [hout] at hl
    rcases secondPass_mem (firstPassGo diffLines 0) false l hl with
      hc | ⟨d, hd, ht, hn⟩ | ⟨d, n, hd, ht, hn, hb1, hb2⟩
    · exact Or.inl hc
    · refine Or.inr (Or.inl ?_)
      have hdash := (firstPass_dash_iff diffLines 0 d hd).mpr hn
      rwa [ht] at hdash
    · exact Or.inr (Or.inr ⟨d, n, hd, ht, hn, hb1, hb2⟩)
  · intro h hh
    rw [hout] at hh
    exact secondPass_head (firstPassGo diffLines 0) hinv h hh
  · rw [hout]
    have hchain := @secondPass_chain (ds - 5) (de + 5) (firstPassGo diffLines 0)
      false "" hinv (fun hfl => by cases hfl)
    exact hchain.tail
  · rfl
  · decide
  · decide
  · decide
  · decide

/-- C9 witness: the claim theorem applied to the concrete 20-line diff; its
first conjunct, instantiated at the emitted line `-line 10`, is discharged
with a concrete membership proof. -/
theorem c9_witness :
    ("-line 10" ∈ extract_nearby_hunks c9DiffLines 10 11 5) ∧
    ((strStarts "-line 10" "@@" = true ∧
       ∃ s c, parse_new_file_range "-line 10" = some (s, c) ∧
         s ≤ 11 + 5 ∧ 10 - 5 ≤ s + c)
     ∨ strStarts "-line 10" "-" = true
     ∨ (∃ dl n, dl ∈ firstPassGo c9DiffLines 0 ∧ dl.text = "-line 10" ∧
          dl.new_line = some n ∧ 10 - 5 ≤ n ∧ n ≤ 11 + 5)) :=
  ⟨by decide,
   (c9_snippet_window_and_adjacent_deletes c9DiffLines 10 11).1
     "-line 10" (by decide)⟩

end Aipair
